import Mathlib

/-!
Shallow embedding of the ROBDD implementation in `src/bdd.py` (class `Node`,
class `BDDManager`: node table, reduction rules, Apply engine, formula parser),
together with proofs of the specification claims about it.

Conventions of the embedding:
* Python's node objects become the inductive `BNode`; the manager's mutable
  state (`node_list`, the `node_to_index` dict and `var_level` dict are derived
  views of `node_list` resp. `variable_ordering`) becomes the structure
  `BDDManager`, threaded explicitly through every operation.
* Python exceptions become `Option`/`Except` results.
* The recursive Apply procedures are defined by well-founded recursion on node
  indices; a recursive call is guarded by the check that the children's indices
  are smaller than the node's own index.  The table invariant (children are
  created before their parent) guarantees the guard always holds in every
  reachable state, so the guarded function agrees with the Python source there;
  on corrupt states, where Python's recursion could diverge, the guard returns
  `none`.
-/

namespace BDD

/-- A BDD node, mirroring class `Node` of bdd.py: either a terminal carrying a
Boolean constant, or a decision node carrying a variable name and the indices of
its low (variable = 0) and high (variable = 1) children. -/
inductive BNode where
  | term : Bool → BNode
  | dec : String → Nat → Nat → BNode
deriving DecidableEq, Repr

/-- The manager state, mirroring class `BDDManager`: the fixed variable
ordering and the append-only node store.  (Python's `var_level` and
`node_to_index` dicts are recomputed views of these two fields.) -/
structure BDDManager where
  variable_ordering : List String
  node_list : List BNode
deriving DecidableEq, Repr

/-- The `var_level` dict built in `BDDManager.__init__` by
`for level, var_name in enumerate(variable_ordering): var_level[var_name] = level`:
maps a name to the index of its last occurrence in the ordering (for distinct
names, simply its position). -/
def var_level : List String → String → Option Nat
  | [], _ => none
  | x :: xs, v =>
    match var_level xs v with
    | some k => some (k + 1)
    | none => if x = v then some 0 else none

/-- Model of `self.var_level.get(v, float('inf'))` as used by `apply_and`: the level of a
known variable, `⊤` (infinity) for an unknown one. -/
def levelW (m : BDDManager) (v : String) : WithTop Nat :=
  match var_level m.variable_ordering v with
  | some k => (k : WithTop Nat)
  | none => ⊤

/-- Model of `self.FALSE`: the terminal FALSE reference, index 0 from initialization. -/
def FALSE : Nat := 0

/-- Model of `self.TRUE`: the terminal TRUE reference, index 1 from initialization. -/
def TRUE : Nat := 1

/-- Model of `BDDManager._add_node`: return the index of an equal stored node if
present, else append the node and return its new index. -/
def _add_node (m : BDDManager) (node : BNode) : BDDManager × Nat :=
  match m.node_list.indexOf? node with
  | some i => (m, i)
  | none => ({ m with node_list := m.node_list ++ [node] }, m.node_list.length)

/-- Model of `BDDManager.__init__(variable_ordering)`: empty store, then the two
terminal nodes are added (FALSE at index 0, TRUE at index 1). -/
def init (variable_ordering : List String) : BDDManager :=
  let m0 : BDDManager := { variable_ordering := variable_ordering, node_list := [] }
  let p1 := _add_node m0 (BNode.term false)
  let p2 := _add_node p1.1 (BNode.term true)
  p2.1

/-- Model of `BDDManager.get_node(index)`, i.e. `self.node_list[index]` with Python list
indexing: a negative index counts from the end; an index out of range on either
side raises `IndexError`, modelled by `none`. -/
def get_node (m : BDDManager) (index : Int) : Option BNode :=
  let j : Int := if index < 0 then (m.node_list.length : Int) + index else index
  if j < 0 then none else m.node_list.get? j.toNat

/-- Helper `getN`: `get_node` restricted to natural indices, the only form the internal
operations use (`self.node_list[index]` for a previously issued index). -/
def getN (m : BDDManager) (i : Nat) : Option BNode := m.node_list.get? i

/-- Model of `BDDManager.make(variable, low_idx, high_idx)`: reduction rule 1 (equal
children collapse to the child), then `_add_node` (reduction rule 2 via
deduplication).  (The Python parameter `variable` is a Lean keyword, hence
`var`.) -/
def make (m : BDDManager) (var : String) (low_idx high_idx : Nat) :
    BDDManager × Nat :=
  if low_idx = high_idx then (m, low_idx)
  else _add_node m (BNode.dec var low_idx high_idx)

/-- Model of `BDDManager.create_variable(var_name)`: `ValueError` (UnknownVariable) when
the name is not in the `var_level` dict, else `make(var_name, FALSE, TRUE)`. -/
def create_variable (m : BDDManager) (var_name : String) :
    Option (BDDManager × Nat) :=
  if (var_level m.variable_ordering var_name).isSome then
    some (make m var_name FALSE TRUE)
  else none

/-!
The recursive procedures of the source (`apply_not`, `apply_and`, and the
semantic evaluation function used by the proofs) are embedded with an explicit
fuel parameter so that they are structurally recursive and compute inside the
kernel.  The public wrapper supplies a fuel bound that provably suffices in
every reachable manager state, because every node built by `make` has both
children at strictly smaller indices, so each recursive call strictly
decreases the (sum of) node indices: depth `node_idx` for `apply_not`, depth
`idx1 + idx2` for `apply_and`.  The fuel-exhaustion result `none` corresponds
to states the Python code cannot reach (the invariant lemmas below prove the
wrappers never return `none` on valid references of reachable states).
-/

/-- Model of `BDDManager.apply_not(node_idx)` with fuel: flip terminals, else recurse
into both children and rebuild with `make`. -/
def apply_notF : Nat → BDDManager → Nat → Option (BDDManager × Nat)
  | 0, _, _ => none
  | fuel+1, m, node_idx =>
    match getN m node_idx with
    | none => none
    | some (BNode.term b) => some (m, if b then FALSE else TRUE)
    | some (BNode.dec var low high) =>
      match apply_notF fuel m low with
      | none => none
      | some (m1, new_low) =>
        match apply_notF fuel m1 high with
        | none => none
        | some (m2, new_high) => some (make m2 var new_low new_high)

/-- Model of `BDDManager.apply_not(node_idx)`: fuel `node_idx + 1` always suffices in a
reachable state since children have smaller indices than their parent. -/
def apply_not (m : BDDManager) (node_idx : Nat) : Option (BDDManager × Nat) :=
  apply_notF (node_idx + 1) m node_idx

/-- Model of `BDDManager.apply_and(idx1, idx2)` with fuel: the Apply algorithm for AND.
Terminal short-circuits compare the references against `FALSE`/`TRUE`; in the
decision/decision case the top variables' levels (unknown variables defaulting
to infinity, as in `var_level.get(..., float('inf'))`) choose the split.  A
terminal node stored at an index other than 0/1 cannot occur in a reachable
state; there Python would read its `variable = None`, which no decision node
of a reachable table can carry, so the embedding maps that dead branch to
`none`. -/
def apply_andF : Nat → BDDManager → Nat → Nat → Option (BDDManager × Nat)
  | 0, _, _, _ => none
  | fuel+1, m, idx1, idx2 =>
    match getN m idx1, getN m idx2 with
    | some node1, some node2 =>
      if idx1 = FALSE ∨ idx2 = FALSE then some (m, FALSE)
      else if idx1 = TRUE then some (m, idx2)
      else if idx2 = TRUE then some (m, idx1)
      else
        match node1, node2 with
        | BNode.dec v1 lo1 hi1, BNode.dec v2 lo2 hi2 =>
          let level1 := levelW m v1
          let level2 := levelW m v2
          if level1 = level2 then
            match apply_andF fuel m lo1 lo2 with
            | none => none
            | some (ma, new_low) =>
              match apply_andF fuel ma hi1 hi2 with
              | none => none
              | some (mb, new_high) => some (make mb v1 new_low new_high)
          else if level1 < level2 then
            match apply_andF fuel m lo1 idx2 with
            | none => none
            | some (ma, new_low) =>
              match apply_andF fuel ma hi1 idx2 with
              | none => none
              | some (mb, new_high) => some (make mb v1 new_low new_high)
          else
            match apply_andF fuel m idx1 lo2 with
            | none => none
            | some (ma, new_low) =>
              match apply_andF fuel ma idx1 hi2 with
              | none => none
              | some (mb, new_high) => some (make mb v2 new_low new_high)
        | _, _ => none
    | _, _ => none

/-- Model of `BDDManager.apply_and(idx1, idx2)`: fuel `idx1 + idx2 + 1` always suffices
in a reachable state, since each recursive call strictly decreases the sum of
the two node indices. -/
def apply_and (m : BDDManager) (idx1 idx2 : Nat) : Option (BDDManager × Nat) :=
  apply_andF (idx1 + idx2 + 1) m idx1 idx2

/-- Model of `BDDManager.apply_or`: De Morgan, `NOT(NOT a AND NOT b)`. -/
def apply_or (m : BDDManager) (idx1 idx2 : Nat) : Option (BDDManager × Nat) := do
  let (m1, not_1) ← apply_not m idx1
  let (m2, not_2) ← apply_not m1 idx2
  let (m3, and_result) ← apply_and m2 not_1 not_2
  apply_not m3 and_result

/-- Model of `BDDManager.apply_xor`: `(a AND NOT b) OR (NOT a AND b)`, in the source's
evaluation order. -/
def apply_xor (m : BDDManager) (idx1 idx2 : Nat) : Option (BDDManager × Nat) := do
  let (m1, not_b) ← apply_not m idx2
  let (m2, a_and_not_b) ← apply_and m1 idx1 not_b
  let (m3, not_a) ← apply_not m2 idx1
  let (m4, not_a_and_b) ← apply_and m3 not_a idx2
  apply_or m4 a_and_not_b not_a_and_b

/-- Model of `BDDManager.apply_implies`: `NOT a OR b`. -/
def apply_implies (m : BDDManager) (idx1 idx2 : Nat) : Option (BDDManager × Nat) := do
  let (m1, not_a) ← apply_not m idx1
  apply_or m1 not_a idx2

/-- Model of `BDDManager.apply_iff`: `(a -> b) AND (b -> a)`. -/
def apply_iff (m : BDDManager) (idx1 idx2 : Nat) : Option (BDDManager × Nat) := do
  let (m1, a_implies_b) ← apply_implies m idx1 idx2
  let (m2, b_implies_a) ← apply_implies m1 idx2 idx1
  apply_and m2 a_implies_b b_implies_a

/-- Characters the tokenizer accepts into an identifier token:
`ch.isalnum() or ch == "_"` (ASCII model of Python's `str.isalnum`). -/
def isIdentChar (c : Char) : Bool := c.isAlphanum || c = '_'

/-- Model of `BDDManager._tokenize` with fuel: single-character operators and
parentheses, the greedy two/three character operators `->` and `<->`, maximal
identifier runs, and silent skipping of any other character.  Every iteration
of the Python `while` loop consumes at least one character, so fuel
`length + 1` always suffices. -/
def tokenizeF : Nat → List Char → List String
  | 0, _ => []
  | _, [] => []
  | fuel+1, '(' :: cs => "(" :: tokenizeF fuel cs
  | fuel+1, ')' :: cs => ")" :: tokenizeF fuel cs
  | fuel+1, '&' :: cs => "&" :: tokenizeF fuel cs
  | fuel+1, '|' :: cs => "|" :: tokenizeF fuel cs
  | fuel+1, '~' :: cs => "~" :: tokenizeF fuel cs
  | fuel+1, '^' :: cs => "^" :: tokenizeF fuel cs
  | fuel+1, '-' :: '>' :: cs => "->" :: tokenizeF fuel cs
  | fuel+1, '<' :: '-' :: '>' :: cs => "<->" :: tokenizeF fuel cs
  | fuel+1, c :: cs =>
    if isIdentChar c then
      String.mk (c :: cs.takeWhile isIdentChar) :: tokenizeF fuel (cs.dropWhile isIdentChar)
    else tokenizeF fuel cs

/-- Model of `BDDManager._tokenize(formula)`. -/
def tokenize (cs : List Char) : List String := tokenizeF (cs.length + 1) cs

/-- The Python exceptions the manager can raise, by source location.  The
spec's three error kinds map onto these as follows: UnknownVariable is
`unknownVariable` (raised in `create_variable`); UnexpectedToken covers
`unexpectedEnd`, `missingClosingParen`, `unexpectedToken` and `trailingTokens`
(the four `ValueError`s of the parser); OutOfRange is an `IndexError` from
`get_node`.  `internal` marks a state the Python code cannot reach from the
public surface (a recursion-guard failure of the Apply engine, or parser fuel
exhaustion); the proofs below show it never occurs in reachable states. -/
inductive BDDError where
  | unknownVariable : String → BDDError
  | unexpectedEnd : BDDError
  | missingClosingParen : BDDError
  | unexpectedToken : String → BDDError
  | trailingTokens : List String → BDDError
  | outOfRange : BDDError
  | internal : BDDError
deriving DecidableEq, Repr

/-- The spec's UnexpectedToken error kind: the four parser `ValueError`s. -/
def isUnexpectedTokenKind : BDDError → Bool
  | .unexpectedEnd => true
  | .missingClosingParen => true
  | .unexpectedToken _ => true
  | .trailingTokens _ => true
  | _ => false

/-- The test `token[0].isalnum() or token[0] == "_"` of `_parse_primary`
(tokens are never empty, so the `[]` case is arbitrary). -/
def isIdentToken (t : String) : Bool :=
  match t.data with
  | [] => false
  | c :: _ => isIdentChar c

/-!
The recursive-descent parser `_parse_iff` … `_parse_primary`.  Python keeps the
token list and position in `self._tokens`/`self._current_pos`; here each
function takes the remaining token list and returns the remaining suffix along
with the updated manager and the reference built so far.  Each `while` loop
over a binary operator becomes a `_parse_…_loop` function.  The mutual
recursion is made structural by a fuel parameter, decremented at every call;
`parse` supplies fuel `13 * tokens.length + 13`, which the completeness lemmas
below show is never exhausted (each call either shortens the token list or
moves down the fixed 12-deep chain of grammar levels).
-/

mutual

/-- Model of `_parse_iff`: `implies ( "<->" implies )*`. -/
def _parse_iff : Nat → BDDManager → List String →
    Except BDDError (BDDManager × Nat × List String)
  | 0, _, _ => .error .internal
  | fuel+1, m, ts =>
    match _parse_implies fuel m ts with
    | .error e => .error e
    | .ok (m1, left, ts1) => _parse_iff_loop fuel m1 left ts1
termination_by structural fuel => fuel

/-- The `while self._peek() == "<->"` loop of `_parse_iff`. -/
def _parse_iff_loop : Nat → BDDManager → Nat → List String →
    Except BDDError (BDDManager × Nat × List String)
  | 0, _, _, _ => .error .internal
  | fuel+1, m, left, ts =>
    match ts with
    | "<->" :: ts1 =>
      match _parse_implies fuel m ts1 with
      | .error e => .error e
      | .ok (m1, right, ts2) =>
        match apply_iff m1 left right with
        | none => .error .internal
        | some (m2, left2) => _parse_iff_loop fuel m2 left2 ts2
    | _ => .ok (m, left, ts)
termination_by structural fuel => fuel

/-- Model of `_parse_implies`: `xor ( "->" xor )*`. -/
def _parse_implies : Nat → BDDManager → List String →
    Except BDDError (BDDManager × Nat × List String)
  | 0, _, _ => .error .internal
  | fuel+1, m, ts =>
    match _parse_xor fuel m ts with
    | .error e => .error e
    | .ok (m1, left, ts1) => _parse_implies_loop fuel m1 left ts1
termination_by structural fuel => fuel

/-- The `while self._peek() == "->"` loop of `_parse_implies`. -/
def _parse_implies_loop : Nat → BDDManager → Nat → List String →
    Except BDDError (BDDManager × Nat × List String)
  | 0, _, _, _ => .error .internal
  | fuel+1, m, left, ts =>
    match ts with
    | "->" :: ts1 =>
      match _parse_xor fuel m ts1 with
      | .error e => .error e
      | .ok (m1, right, ts2) =>
        match apply_implies m1 left right with
        | none => .error .internal
        | some (m2, left2) => _parse_implies_loop fuel m2 left2 ts2
    | _ => .ok (m, left, ts)
termination_by structural fuel => fuel

/-- Model of `_parse_xor`: `or ( "^" or )*`. -/
def _parse_xor : Nat → BDDManager → List String →
    Except BDDError (BDDManager × Nat × List String)
  | 0, _, _ => .error .internal
  | fuel+1, m, ts =>
    match _parse_or fuel m ts with
    | .error e => .error e
    | .ok (m1, left, ts1) => _parse_xor_loop fuel m1 left ts1
termination_by structural fuel => fuel

/-- The `while self._peek() == "^"` loop of `_parse_xor`. -/
def _parse_xor_loop : Nat → BDDManager → Nat → List String →
    Except BDDError (BDDManager × Nat × List String)
  | 0, _, _, _ => .error .internal
  | fuel+1, m, left, ts =>
    match ts with
    | "^" :: ts1 =>
      match _parse_or fuel m ts1 with
      | .error e => .error e
      | .ok (m1, right, ts2) =>
        match apply_xor m1 left right with
        | none => .error .internal
        | some (m2, left2) => _parse_xor_loop fuel m2 left2 ts2
    | _ => .ok (m, left, ts)
termination_by structural fuel => fuel

/-- Model of `_parse_or`: `and ( "|" and )*`. -/
def _parse_or : Nat → BDDManager → List String →
    Except BDDError (BDDManager × Nat × List String)
  | 0, _, _ => .error .internal
  | fuel+1, m, ts =>
    match _parse_and fuel m ts with
    | .error e => .error e
    | .ok (m1, left, ts1) => _parse_or_loop fuel m1 left ts1
termination_by structural fuel => fuel

/-- The `while self._peek() == "|"` loop of `_parse_or`. -/
def _parse_or_loop : Nat → BDDManager → Nat → List String →
    Except BDDError (BDDManager × Nat × List String)
  | 0, _, _, _ => .error .internal
  | fuel+1, m, left, ts =>
    match ts with
    | "|" :: ts1 =>
      match _parse_and fuel m ts1 with
      | .error e => .error e
      | .ok (m1, right, ts2) =>
        match apply_or m1 left right with
        | none => .error .internal
        | some (m2, left2) => _parse_or_loop fuel m2 left2 ts2
    | _ => .ok (m, left, ts)
termination_by structural fuel => fuel

/-- Model of `_parse_and`: `not ( "&" not )*`. -/
def _parse_and : Nat → BDDManager → List String →
    Except BDDError (BDDManager × Nat × List String)
  | 0, _, _ => .error .internal
  | fuel+1, m, ts =>
    match _parse_not fuel m ts with
    | .error e => .error e
    | .ok (m1, left, ts1) => _parse_and_loop fuel m1 left ts1
termination_by structural fuel => fuel

/-- The `while self._peek() == "&"` loop of `_parse_and`. -/
def _parse_and_loop : Nat → BDDManager → Nat → List String →
    Except BDDError (BDDManager × Nat × List String)
  | 0, _, _, _ => .error .internal
  | fuel+1, m, left, ts =>
    match ts with
    | "&" :: ts1 =>
      match _parse_not fuel m ts1 with
      | .error e => .error e
      | .ok (m1, right, ts2) =>
        match apply_and m1 left right with
        | none => .error .internal
        | some (m2, left2) => _parse_and_loop fuel m2 left2 ts2
    | _ => .ok (m, left, ts)
termination_by structural fuel => fuel

/-- Model of `_parse_not`: `"~" not | primary` (right-associative prefix). -/
def _parse_not : Nat → BDDManager → List String →
    Except BDDError (BDDManager × Nat × List String)
  | 0, _, _ => .error .internal
  | fuel+1, m, ts =>
    match ts with
    | "~" :: ts1 =>
      match _parse_not fuel m ts1 with
      | .error e => .error e
      | .ok (m1, operand, ts2) =>
        match apply_not m1 operand with
        | none => .error .internal
        | some (m2, r) => .ok (m2, r, ts2)
    | _ => _parse_primary fuel m ts
termination_by structural fuel => fuel

/-- Model of `_parse_primary`: `"(" iff ")" | IDENTIFIER`, raising the parser's three
`ValueError`s (unexpected end, missing closing parenthesis, unexpected
token) and propagating `create_variable`'s UnknownVariable. -/
def _parse_primary : Nat → BDDManager → List String →
    Except BDDError (BDDManager × Nat × List String)
  | 0, _, _ => .error .internal
  | fuel+1, m, ts =>
    match ts with
    | [] => .error .unexpectedEnd
    | "(" :: ts1 =>
      match _parse_iff fuel m ts1 with
      | .error e => .error e
      | .ok (m1, result, ts2) =>
        match ts2 with
        | ")" :: ts3 => .ok (m1, result, ts3)
        | _ => .error .missingClosingParen
    | t :: ts1 =>
      if isIdentToken t then
        match create_variable m t with
        | none => .error (.unknownVariable t)
        | some (m1, r) => .ok (m1, r, ts1)
      else .error (.unexpectedToken t)

termination_by structural fuel => fuel
end

/-- Model of `BDDManager.parse(formula_string)`: remove spaces (`replace(" ", "")`),
tokenize, run the recursive descent, and fail on leftover tokens. -/
def parse (m : BDDManager) (formula_string : String) :
    Except BDDError (BDDManager × Nat) :=
  let cleaned := formula_string.data.filter (fun c => c ≠ ' ')
  let tokens := tokenize cleaned
  match _parse_iff (13 * tokens.length + 13) m tokens with
  | .error e => .error e
  | .ok (m1, result, rest) =>
    match rest with
    | [] => .ok (m1, result)
    | _ => .error (.trailingTokens rest)

/-- Relation `Extends m m2`: `m2` is a later state of the same manager as `m`: same ordering, and the
node store has only grown at the end. -/
structure Extends (m m2 : BDDManager) : Prop where
  ord_eq : m2.variable_ordering = m.variable_ordering
  nodes_ext : ∃ ext, m2.node_list = m.node_list ++ ext

/-- The level at which a node tests: a decision node tests at its variable's
level, a terminal at `⊤` (terminals are "below" every variable). -/
def nodeLevel (m : BDDManager) : BNode → WithTop Nat
  | BNode.term _ => ⊤
  | BNode.dec v _ _ => levelW m v

/-- The level of the node a reference designates (`⊤` for an invalid
reference; the invariant proofs only use it on valid ones). -/
def refLevel (m : BDDManager) (i : Nat) : WithTop Nat :=
  match getN m i with
  | some n => nodeLevel m n
  | none => ⊤

/-- The table invariant of a `BDDManager`, maintained by every public
operation: the two terminals sit at indices 0 and 1 and are the only
terminals; every decision node was built after its children (so children have
strictly smaller indices), is non-redundant (rule 1), tests a known variable
at a level strictly above both children's levels (the ordering invariant); and
the store holds no duplicate node (rule 2). -/
structure Inv (m : BDDManager) : Prop where
  false_at : getN m 0 = some (BNode.term false)
  true_at : getN m 1 = some (BNode.term true)
  term_pos : ∀ i b, getN m i = some (BNode.term b) → i = 0 ∨ i = 1
  dec_children : ∀ i v lo hi, getN m i = some (BNode.dec v lo hi) → lo < i ∧ hi < i
  dec_ne : ∀ i v lo hi, getN m i = some (BNode.dec v lo hi) → lo ≠ hi
  dec_var : ∀ i v lo hi, getN m i = some (BNode.dec v lo hi) →
    (var_level m.variable_ordering v).isSome
  dec_ord : ∀ i v lo hi, getN m i = some (BNode.dec v lo hi) →
    levelW m v < refLevel m lo ∧ levelW m v < refLevel m hi
  nodup : m.node_list.Nodup

/-- Semantic evaluation of a reference under an assignment, with fuel (the
code has no such function; this is the mathematical meaning of a diagram: at a
decision node follow the high edge when the variable is true, the low edge
when it is false). -/
def evalRefF : Nat → BDDManager → (String → Bool) → Nat → Bool
  | 0, _, _, _ => false
  | fuel+1, m, ρ, i =>
    match getN m i with
    | some (BNode.term b) => b
    | some (BNode.dec v lo hi) =>
      if ρ v then evalRefF fuel m ρ hi else evalRefF fuel m ρ lo
    | none => false

/-- Semantic evaluation of a reference: fuel `i + 1` suffices whenever the
table invariant holds, since children have smaller indices. -/
def evalRef (m : BDDManager) (ρ : String → Bool) (i : Nat) : Bool :=
  evalRefF (i + 1) m ρ i

/-- Manager states reachable from initialization through the public operation
surface (`create_variable`, the six Boolean operations, `parse`), counting a
state whenever a public call starting from a reachable state succeeds. -/
inductive Reachable : BDDManager → Prop where
  | init (ordering : List String) : Reachable (init ordering)
  | create_variable {m m2 : BDDManager} {v : String} {r : Nat} :
      Reachable m → create_variable m v = some (m2, r) → Reachable m2
  | apply_not {m m2 : BDDManager} {i r : Nat} :
      Reachable m → apply_not m i = some (m2, r) → Reachable m2
  | apply_and {m m2 : BDDManager} {i1 i2 r : Nat} :
      Reachable m → apply_and m i1 i2 = some (m2, r) → Reachable m2
  | apply_or {m m2 : BDDManager} {i1 i2 r : Nat} :
      Reachable m → apply_or m i1 i2 = some (m2, r) → Reachable m2
  | apply_xor {m m2 : BDDManager} {i1 i2 r : Nat} :
      Reachable m → apply_xor m i1 i2 = some (m2, r) → Reachable m2
  | apply_implies {m m2 : BDDManager} {i1 i2 r : Nat} :
      Reachable m → apply_implies m i1 i2 = some (m2, r) → Reachable m2
  | apply_iff {m m2 : BDDManager} {i1 i2 r : Nat} :
      Reachable m → apply_iff m i1 i2 = some (m2, r) → Reachable m2
  | parse {m m2 : BDDManager} {s : String} {r : Nat} :
      Reachable m → parse m s = .ok (m2, r) → Reachable m2

/-- The operator token of each binary grammar level
(2 = and, 3 = or, 4 = xor, 5 = implies, 6 = iff). -/
def opTok : Nat → String
  | 2 => "&"
  | 3 => "|"
  | 4 => "^"
  | 5 => "->"
  | _ => "<->"

/-- Predicate `Gram k ts`: the token list `ts` derives the grammar nonterminal at level
`k` (0 = primary, 1 = not, 2 = and, 3 = or, 4 = xor, 5 = implies, 6 = iff) of
the grammar implemented by `_parse_iff` … `_parse_primary`:
`primary := "(" iff ")" | IDENTIFIER`, `not := "~" not | primary`, and each
binary level `k+1 := k ( op(k+1) k )*`, left-associatively. -/
inductive Gram : Nat → List String → Prop where
  | var {t : String} : isIdentToken t = true → Gram 0 [t]
  | paren {ts : List String} : Gram 6 ts → Gram 0 ("(" :: (ts ++ [")"]))
  | neg {ts : List String} : Gram 1 ts → Gram 1 ("~" :: ts)
  | lift {k : Nat} {ts : List String} : k ≤ 5 → Gram k ts → Gram (k+1) ts
  | app {k : Nat} {ts1 ts2 : List String} : 1 ≤ k → k ≤ 5 → Gram (k+1) ts1 →
      Gram k ts2 → Gram (k+1) (ts1 ++ opTok (k+1) :: ts2)

/-- All identifier tokens of `ts` name known variables of `m`. -/
def identOK (m : BDDManager) (ts : List String) : Prop :=
  ∀ t ∈ ts, isIdentToken t = true → (var_level m.variable_ordering t).isSome

/-- The tokens following a level-`k` parse cannot extend it: none of the
binary operators of level ≤ `k` comes next. -/
def followOK (k : Nat) (rest : List String) : Prop :=
  ∀ j, 2 ≤ j → j ≤ k → rest.head? ≠ some (opTok j)

/-- Completeness property of an entry parser function at level `k` with fuel
rank `rank`, for token lists of length at most `n`: on a grammatical token
list over known variables, followed by tokens that cannot extend the parse,
the function succeeds, consumes exactly the grammatical prefix, and preserves
the manager invariant. -/
def ParseGood
    (pfn : Nat → BDDManager → List String →
      Except BDDError (BDDManager × Nat × List String))
    (k rank n : Nat) : Prop :=
  ∀ ts : List String, ts.length ≤ n → Gram k ts →
    ∀ (rest : List String) (m : BDDManager), Inv m →
    identOK m ts → followOK k rest →
    ∀ fuel, 13 * (ts.length + rest.length) + rank ≤ fuel →
    ∃ m2 r, pfn fuel m (ts ++ rest) = .ok (m2, r, rest) ∧
      Extends m m2 ∧ Inv m2 ∧ r < m2.node_list.length

/-- Completeness property of a loop parser function at binary level `k+1`:
processing a list of operator-prefixed level-`k` chunks from any valid
accumulator reference succeeds, consumes exactly the chunks, and preserves
the invariant. -/
def LoopGood
    (loopfn : Nat → BDDManager → Nat → List String →
      Except BDDError (BDDManager × Nat × List String))
    (k rank n : Nat) : Prop :=
  ∀ cs : List (List String), (∀ x ∈ cs, Gram k x ∧ x.length ≤ n) →
    ∀ (rest : List String) (m : BDDManager) (left : Nat), Inv m →
    left < m.node_list.length →
    (∀ x ∈ cs, identOK m x) → followOK (k+1) rest →
    ∀ fuel,
      13 * (((cs.map (fun x => opTok (k+1) :: x)).join).length + rest.length) +
        rank ≤ fuel →
    ∃ m2 r,
      loopfn fuel m left ((cs.map (fun x => opTok (k+1) :: x)).join ++ rest) =
        .ok (m2, r, rest) ∧
      Extends m m2 ∧ Inv m2 ∧ r < m2.node_list.length

/-! ### Basic facts about the level map -/

theorem var_level_get {v : String} :
    ∀ {ord : List String} {k : Nat}, var_level ord v = some k → ord.get? k = some v := by
  intro ord
  induction ord with
  | nil => intro k h; simp [var_level] at h
  | cons x xs ih =>
    intro k h
    simp only [var_level] at h
    cases hx : var_level xs v with
    | some j =>
      rw [hx] at h
      simp only [Option.some.injEq] at h
      subst h
      simpa using ih hx
    | none =>
      rw [hx] at h
      by_cases hxv : x = v
      · simp only [if_pos hxv] at h
        simp only [Option.some.injEq] at h
        subst h
        simp [hxv]
      · simp [if_neg hxv] at h

theorem var_level_lt {ord : List String} {v : String} {k : Nat}
    (h : var_level ord v = some k) : k < ord.length := by
  have := var_level_get h
  by_contra hk
  rw [List.get?_eq_none.mpr (by omega)] at this
  exact Option.noConfusion this

theorem var_level_inj {ord : List String} {v1 v2 : String} {k : Nat}
    (h1 : var_level ord v1 = some k) (h2 : var_level ord v2 = some k) : v1 = v2 := by
  have g1 := var_level_get h1
  have g2 := var_level_get h2
  rw [g1] at g2
  exact (Option.some.injEq _ _ ▸ g2)

theorem var_level_isSome_iff {ord : List String} {v : String} :
    (var_level ord v).isSome ↔ v ∈ ord := by
  induction ord with
  | nil => simp [var_level]
  | cons x xs ih =>
    simp only [var_level, List.mem_cons]
    cases hx : var_level xs v with
    | some j => simp [hx] at ih ⊢; exact Or.inr ih
    | none =>
      simp [hx] at ih ⊢
      by_cases hxv : x = v
      · simp [hxv]
      · simp [hxv, ih]
        intro h
        exact hxv h.symm

theorem levelW_coe {m : BDDManager} {v : String} {k : Nat}
    (h : var_level m.variable_ordering v = some k) : levelW m v = (k : WithTop Nat) := by
  unfold levelW
  rw [h]

theorem levelW_top {m : BDDManager} {v : String}
    (h : var_level m.variable_ordering v = none) : levelW m v = ⊤ := by
  unfold levelW
  rw [h]

theorem levelW_ne_top {m : BDDManager} {v : String}
    (h : (var_level m.variable_ordering v).isSome) : levelW m v ≠ ⊤ := by
  cases hx : var_level m.variable_ordering v with
  | some k => rw [levelW_coe hx]; exact WithTop.coe_ne_top
  | none => rw [hx] at h; simp at h

theorem levelW_inj {m : BDDManager} {v1 v2 : String}
    (h : levelW m v1 = levelW m v2) (h1 : levelW m v1 ≠ ⊤) : v1 = v2 := by
  cases hx1 : var_level m.variable_ordering v1 with
  | none => exact absurd (levelW_top hx1) h1
  | some k1 =>
    cases hx2 : var_level m.variable_ordering v2 with
    | none =>
      rw [levelW_coe hx1, levelW_top hx2] at h
      exact absurd h WithTop.coe_ne_top
    | some k2 =>
      rw [levelW_coe hx1, levelW_coe hx2] at h
      have : k1 = k2 := by exact_mod_cast h
      subst this
      exact var_level_inj hx1 hx2

/-! ### Store extension (append-only growth) -/


theorem Extends.rfl (m : BDDManager) : Extends m m :=
  ⟨Eq.refl _, [], by simp⟩

theorem Extends.trans {m1 m2 m3 : BDDManager}
    (h12 : Extends m1 m2) (h23 : Extends m2 m3) : Extends m1 m3 := by
  obtain ⟨o12, e12, he12⟩ := h12
  obtain ⟨o23, e23, he23⟩ := h23
  exact ⟨by rw [o23, o12], e12 ++ e23, by rw [he23, he12, List.append_assoc]⟩

theorem Extends.len_le {m m2 : BDDManager} (h : Extends m m2) :
    m.node_list.length ≤ m2.node_list.length := by
  obtain ⟨_, ext, he⟩ := h
  simp [he]

theorem Extends.getN_eq {m m2 : BDDManager} (h : Extends m m2) {i : Nat}
    (hi : i < m.node_list.length) : getN m2 i = getN m i := by
  obtain ⟨_, ext, he⟩ := h
  simp only [getN, he]
  exact List.get?_append hi

theorem getN_lt {m : BDDManager} {i : Nat} {n : BNode} (h : getN m i = some n) :
    i < m.node_list.length := by
  by_contra hi
  rw [getN, List.get?_eq_none.mpr (by omega)] at h
  exact Option.noConfusion h

theorem Extends.getN_mono {m m2 : BDDManager} (h : Extends m m2) {i : Nat} {n : BNode}
    (hn : getN m i = some n) : getN m2 i = some n := by
  rw [h.getN_eq (getN_lt hn)]
  exact hn

theorem Extends.var_level_eq {m m2 : BDDManager} (h : Extends m m2) (v : String) :
    var_level m2.variable_ordering v = var_level m.variable_ordering v := by
  rw [h.ord_eq]

theorem Extends.levelW_eq {m m2 : BDDManager} (h : Extends m m2) (v : String) :
    levelW m2 v = levelW m v := by
  unfold levelW
  rw [h.var_level_eq]

/-! ### The deduplicating store -/

theorem indexOf?_some_get? {l : List BNode} {a : BNode} {i : Nat}
    (h : l.indexOf? a = some i) : l.get? i = some a := by
  induction l generalizing i with
  | nil => simp at h
  | cons x xs ih =>
    rw [List.indexOf?_cons] at h
    by_cases hx : x = a
    · simp [hx] at h
      subst h
      simp [hx]
    · have hbeq : (x == a) = false := beq_eq_false_iff_ne.mpr hx
      rw [hbeq] at h
      simp only [Bool.false_eq_true, if_false, Option.map_eq_some'] at h
      obtain ⟨j, hj, rfl⟩ := h
      simpa using ih hj

theorem indexOf?_none_iff {l : List BNode} {a : BNode} :
    l.indexOf? a = none ↔ a ∉ l := by
  rw [List.indexOf?_eq_none_iff]
  constructor
  · intro h ha
    exact h a ha (beq_self_eq_true a)
  · intro h x hx hbeq
    exact h (eq_of_beq hbeq ▸ hx)

theorem _add_node_extends (m : BDDManager) (n : BNode) :
    Extends m (_add_node m n).1 := by
  unfold _add_node
  cases h : m.node_list.indexOf? n with
  | some i => exact Extends.rfl m
  | none => exact ⟨Eq.refl _, [n], Eq.refl _⟩

theorem _add_node_getN (m : BDDManager) (n : BNode) :
    getN (_add_node m n).1 (_add_node m n).2 = some n := by
  unfold _add_node
  cases h : m.node_list.indexOf? n with
  | some i => simpa [getN] using indexOf?_some_get? h
  | none => simp [getN, List.get?_concat_length]

theorem _add_node_lt (m : BDDManager) (n : BNode) :
    (_add_node m n).2 < (_add_node m n).1.node_list.length :=
  getN_lt (_add_node_getN m n)

theorem _add_node_of_not_mem {m : BDDManager} {n : BNode} (h : n ∉ m.node_list) :
    (_add_node m n).1.node_list = m.node_list ++ [n] ∧
    (_add_node m n).2 = m.node_list.length := by
  unfold _add_node
  rw [indexOf?_none_iff.mpr h]
  exact ⟨Eq.refl _, Eq.refl _⟩

theorem _add_node_of_mem {m : BDDManager} {n : BNode} (h : n ∈ m.node_list) :
    (_add_node m n).1 = m := by
  unfold _add_node
  cases hx : m.node_list.indexOf? n with
  | some i => rfl
  | none => exact absurd (indexOf?_none_iff.mp hx) (by simpa using h)

/-! ### Levels of stored nodes and the table invariant -/



theorem refLevel_term {m : BDDManager} {i : Nat} {b : Bool}
    (h : getN m i = some (BNode.term b)) : refLevel m i = ⊤ := by
  unfold refLevel
  rw [h]
  rfl

theorem refLevel_dec {m : BDDManager} {i : Nat} {v : String} {lo hi : Nat}
    (h : getN m i = some (BNode.dec v lo hi)) : refLevel m i = levelW m v := by
  unfold refLevel
  rw [h]
  rfl


theorem Inv.two_le {m : BDDManager} (h : Inv m) : 2 ≤ m.node_list.length := by
  have := getN_lt h.true_at
  omega

@[simp] theorem init_variable_ordering (ord : List String) :
    (init ord).variable_ordering = ord := rfl

@[simp] theorem init_node_list (ord : List String) :
    (init ord).node_list = [BNode.term false, BNode.term true] := rfl

theorem init_Inv (ord : List String) : Inv (init ord) := by
  refine ⟨rfl, rfl, ?_, ?_, ?_, ?_, ?_, ?_⟩
  · intro i b h
    match i with
    | 0 => exact Or.inl (Eq.refl 0)
    | 1 => exact Or.inr (Eq.refl 1)
    | j+2 => simp [getN] at h
  · intro i v lo hi h
    match i with
    | 0 => simp [getN] at h
    | 1 => simp [getN] at h
    | j+2 => simp [getN] at h
  · intro i v lo hi h
    match i with
    | 0 => simp [getN] at h
    | 1 => simp [getN] at h
    | j+2 => simp [getN] at h
  · intro i v lo hi h
    match i with
    | 0 => simp [getN] at h
    | 1 => simp [getN] at h
    | j+2 => simp [getN] at h
  · intro i v lo hi h
    match i with
    | 0 => simp [getN] at h
    | 1 => simp [getN] at h
    | j+2 => simp [getN] at h
  · simp

/-! ### Semantics: the Boolean function a reference denotes -/



theorem evalRef_term {m : BDDManager} {i : Nat} {b : Bool} (ρ : String → Bool)
    (h : getN m i = some (BNode.term b)) : evalRef m ρ i = b := by
  unfold evalRef evalRefF
  rw [h]

theorem evalRef_false {m : BDDManager} (hInv : Inv m) (ρ : String → Bool) :
    evalRef m ρ FALSE = false :=
  evalRef_term ρ hInv.false_at

theorem evalRef_true {m : BDDManager} (hInv : Inv m) (ρ : String → Bool) :
    evalRef m ρ TRUE = true :=
  evalRef_term ρ hInv.true_at

theorem evalRefF_congr {m : BDDManager} (hInv : Inv m) (ρ : String → Bool) :
    ∀ i, ∀ fuel, i < fuel → evalRefF fuel m ρ i = evalRef m ρ i := by
  intro i
  induction i using Nat.strong_induction_on with
  | _ i ih =>
    intro fuel hfuel
    match fuel with
    | f+1 =>
      show evalRefF (f+1) m ρ i = evalRefF (i+1) m ρ i
      unfold evalRefF
      cases hn : getN m i with
      | none => rfl
      | some n =>
        cases n with
        | term b => rfl
        | dec v lo hi =>
          obtain ⟨hlo, hhi⟩ := hInv.dec_children i v lo hi hn
          have elo : evalRefF f m ρ lo = evalRef m ρ lo := ih lo hlo f (by omega)
          have ehi : evalRefF f m ρ hi = evalRef m ρ hi := ih hi hhi f (by omega)
          have elo2 : evalRefF i m ρ lo = evalRef m ρ lo := ih lo hlo i (by omega)
          have ehi2 : evalRefF i m ρ hi = evalRef m ρ hi := ih hi hhi i (by omega)
          dsimp only
          rw [elo, ehi, elo2, ehi2]

theorem evalRef_dec {m : BDDManager} (hInv : Inv m) (ρ : String → Bool)
    {i : Nat} {v : String} {lo hi : Nat}
    (h : getN m i = some (BNode.dec v lo hi)) :
    evalRef m ρ i = if ρ v then evalRef m ρ hi else evalRef m ρ lo := by
  obtain ⟨hlo, hhi⟩ := hInv.dec_children i v lo hi h
  show evalRefF (i+1) m ρ i = _
  unfold evalRefF
  rw [h]
  dsimp only
  rw [evalRefF_congr hInv ρ lo i (by omega), evalRefF_congr hInv ρ hi i (by omega)]

/-- Evaluation is stable under store extension: a reference valid in `m`
denotes the same function in any later state. -/
theorem evalRef_stab {m m2 : BDDManager} (hInv : Inv m) (hInv2 : Inv m2)
    (hext : Extends m m2) (ρ : String → Bool) :
    ∀ i, i < m.node_list.length → evalRef m2 ρ i = evalRef m ρ i := by
  intro i
  induction i using Nat.strong_induction_on with
  | _ i ih =>
    intro hi
    cases hn : getN m i with
    | none =>
      rw [getN, List.get?_eq_none] at hn
      omega
    | some n =>
      have hn2 : getN m2 i = some n := hext.getN_mono hn
      cases n with
      | term b => rw [evalRef_term ρ hn, evalRef_term ρ hn2]
      | dec v lo hi =>
        obtain ⟨hlo, hhi⟩ := hInv.dec_children i v lo hi hn
        rw [evalRef_dec hInv ρ hn, evalRef_dec hInv2 ρ hn2]
        rw [ih lo hlo (by omega), ih hi hhi (by omega)]

theorem refLevel_stab {m m2 : BDDManager} (hext : Extends m m2) {i : Nat}
    (hi : i < m.node_list.length) : refLevel m2 i = refLevel m i := by
  unfold refLevel
  rw [hext.getN_eq hi]
  cases getN m i with
  | none => rfl
  | some n =>
    cases n with
    | term b => rfl
    | dec v lo hi => simp only [nodeLevel]; exact hext.levelW_eq v

theorem getN_exists {m : BDDManager} {i : Nat} (hi : i < m.node_list.length) :
    ∃ n, getN m i = some n := by
  rw [getN]
  cases h : m.node_list.get? i with
  | none => rw [List.get?_eq_none] at h; omega
  | some n => exact ⟨n, Eq.refl _⟩

theorem get?_append_singleton {l : List BNode} {n x : BNode} {i : Nat}
    (h : (l ++ [n]).get? i = some x) :
    (i < l.length ∧ l.get? i = some x) ∨ (i = l.length ∧ x = n) := by
  by_cases hi : i < l.length
  · exact Or.inl ⟨hi, by rw [← List.get?_append hi]; exact h⟩
  · right
    rw [List.get?_append_right (by omega)] at h
    cases hk : i - l.length with
    | zero =>
      rw [hk] at h
      simp at h
      exact ⟨by omega, h.symm⟩
    | succ k =>
      rw [hk] at h
      simp at h

/-! ### Correctness of `make` -/

/-- The central lemma about `make`: starting from a state satisfying the table
invariant, with valid children of levels strictly below the new variable's
level, `make` extends the store, preserves the invariant, returns a valid
reference whose level is at least the variable's, and builds the Shannon
decomposition `if ρ(v) then high else low`. -/
theorem make_spec {m : BDDManager} {v : String} {lo hi : Nat}
    (hInv : Inv m) (hlo : lo < m.node_list.length) (hhi : hi < m.node_list.length)
    (hv : (var_level m.variable_ordering v).isSome)
    (holo : levelW m v < refLevel m lo) (hohi : levelW m v < refLevel m hi) :
    Extends m (make m v lo hi).1 ∧ Inv (make m v lo hi).1 ∧
    (make m v lo hi).2 < (make m v lo hi).1.node_list.length ∧
    levelW m v ≤ refLevel (make m v lo hi).1 (make m v lo hi).2 ∧
    ∀ ρ, evalRef (make m v lo hi).1 ρ (make m v lo hi).2 =
      if ρ v then evalRef m ρ hi else evalRef m ρ lo := by
  by_cases heq : lo = hi
  · subst heq
    have hmk : make m v lo lo = (m, lo) := by unfold make; simp
    rw [hmk]
    refine ⟨Extends.rfl m, hInv, hlo, le_of_lt holo, ?_⟩
    intro ρ
    simp
  · have hmk : make m v lo hi = _add_node m (BNode.dec v lo hi) := by
      unfold make
      simp [heq]
    rw [hmk]
    by_cases hmem : BNode.dec v lo hi ∈ m.node_list
    · have h1 : (_add_node m (BNode.dec v lo hi)).1 = m :=
        _add_node_of_mem hmem
      have hget := _add_node_getN m (BNode.dec v lo hi)
      rw [h1] at hget ⊢
      refine ⟨Extends.rfl m, hInv, getN_lt hget, ?_, ?_⟩
      · rw [refLevel_dec hget]
      · intro ρ
        rw [evalRef_dec hInv ρ hget]
    · obtain ⟨hlist, hidx⟩ := _add_node_of_not_mem hmem
      have hext : Extends m (_add_node m (BNode.dec v lo hi)).1 :=
        _add_node_extends m (BNode.dec v lo hi)
      have hget := _add_node_getN m (BNode.dec v lo hi)
      have hvalid := _add_node_lt m (BNode.dec v lo hi)
      -- classify references of the new state
      have hcases : ∀ j x, getN (_add_node m (BNode.dec v lo hi)).1 j = some x →
          (j < m.node_list.length ∧ getN m j = some x) ∨
          (j = m.node_list.length ∧ x = BNode.dec v lo hi) := by
        intro j x hx
        rw [getN, hlist] at hx
        exact get?_append_singleton hx
      have hInv2 : Inv (_add_node m (BNode.dec v lo hi)).1 := by
        refine ⟨hext.getN_mono hInv.false_at, hext.getN_mono hInv.true_at,
          ?_, ?_, ?_, ?_, ?_, ?_⟩
        · intro i b h
          rcases hcases i (BNode.term b) h with ⟨hilt, hold⟩ | ⟨_, hnew⟩
          · exact hInv.term_pos i b hold
          · exact absurd hnew (by simp)
        · intro i v2 lo2 hi2 h
          rcases hcases i (BNode.dec v2 lo2 hi2) h with ⟨hilt, hold⟩ | ⟨hi_eq, hnew⟩
          · exact hInv.dec_children i v2 lo2 hi2 hold
          · injection hnew with e1 e2 e3
            subst e2
            subst e3
            omega
        · intro i v2 lo2 hi2 h
          rcases hcases i (BNode.dec v2 lo2 hi2) h with ⟨hilt, hold⟩ | ⟨hi_eq, hnew⟩
          · exact hInv.dec_ne i v2 lo2 hi2 hold
          · injection hnew with e1 e2 e3
            subst e2
            subst e3
            exact heq
        · intro i v2 lo2 hi2 h
          rw [hext.var_level_eq]
          rcases hcases i (BNode.dec v2 lo2 hi2) h with ⟨hilt, hold⟩ | ⟨hi_eq, hnew⟩
          · exact hInv.dec_var i v2 lo2 hi2 hold
          · injection hnew with e1 e2 e3
            subst e1
            exact hv
        · intro i v2 lo2 hi2 h
          rcases hcases i (BNode.dec v2 lo2 hi2) h with ⟨hilt, hold⟩ | ⟨hi_eq, hnew⟩
          · obtain ⟨hc1, hc2⟩ := hInv.dec_children i v2 lo2 hi2 hold
            obtain ⟨ho1, ho2⟩ := hInv.dec_ord i v2 lo2 hi2 hold
            rw [hext.levelW_eq, refLevel_stab hext (by omega),
              refLevel_stab hext (by omega)]
            exact ⟨ho1, ho2⟩
          · injection hnew with e1 e2 e3
            subst e1
            subst e2
            subst e3
            rw [hext.levelW_eq, refLevel_stab hext hlo, refLevel_stab hext hhi]
            exact ⟨holo, hohi⟩
        · rw [hlist]
          rw [List.nodup_append]
          refine ⟨hInv.nodup, List.nodup_singleton _, ?_⟩
          intro a ha hb
          simp at hb
          subst hb
          exact hmem ha
      refine ⟨hext, hInv2, hvalid, ?_, ?_⟩
      · rw [refLevel_dec hget, hext.levelW_eq]
      · intro ρ
        rw [evalRef_dec hInv2 ρ hget]
        rw [evalRef_stab hInv hInv2 hext ρ hi hhi, evalRef_stab hInv hInv2 hext ρ lo hlo]

/-! ### Canonicity: equivalent references are equal -/

/-- A diagram does not depend on variables tested strictly above its top
level. -/
theorem evalRef_indep {m : BDDManager} (hInv : Inv m) {v : String} (b : Bool)
    (ρ : String → Bool) :
    ∀ i, i < m.node_list.length → levelW m v < refLevel m i →
    evalRef m (fun w => if w = v then b else ρ w) i = evalRef m ρ i := by
  intro i
  induction i using Nat.strong_induction_on with
  | _ i ih =>
    intro hi hlvl
    obtain ⟨n, hn⟩ := getN_exists hi
    cases n with
    | term c => rw [evalRef_term _ hn, evalRef_term _ hn]
    | dec x lo hi2 =>
      rw [evalRef_dec hInv _ hn, evalRef_dec hInv _ hn]
      rw [refLevel_dec hn] at hlvl
      have hxv : x ≠ v := by
        intro hxe
        subst hxe
        exact lt_irrefl _ hlvl
      obtain ⟨hc1, hc2⟩ := hInv.dec_children i x lo hi2 hn
      obtain ⟨ho1, ho2⟩ := hInv.dec_ord i x lo hi2 hn
      simp only [if_neg hxv]
      cases hx : ρ x with
      | false =>
        simp only [Bool.false_eq_true, if_false]
        exact ih lo hc1 (by omega) (lt_trans hlvl ho1)
      | true =>
        simp only [if_true]
        exact ih hi2 hc2 (by omega) (lt_trans hlvl ho2)

/-- Restricting the top variable of a decision node to false/true selects the
low/high child, semantically. -/
theorem evalRef_restrict {m : BDDManager} (hInv : Inv m) {i : Nat} {v : String}
    {lo hi : Nat} (hn : getN m i = some (BNode.dec v lo hi)) (ρ : String → Bool) :
    evalRef m ρ lo = evalRef m (fun w => if w = v then false else ρ w) i ∧
    evalRef m ρ hi = evalRef m (fun w => if w = v then true else ρ w) i := by
  obtain ⟨hc1, hc2⟩ := hInv.dec_children i v lo hi hn
  obtain ⟨ho1, ho2⟩ := hInv.dec_ord i v lo hi hn
  have hilen := getN_lt hn
  constructor
  · rw [evalRef_dec hInv _ hn]
    rw [if_pos (Eq.refl v)]
    simp only [Bool.false_eq_true, if_false]
    exact (evalRef_indep hInv false ρ lo (show lo < m.node_list.length by omega) ho1).symm
  · rw [evalRef_dec hInv _ hn]
    rw [if_pos (Eq.refl v)]
    simp only [if_true]
    exact (evalRef_indep hInv true ρ hi (show hi < m.node_list.length by omega) ho2).symm

theorem getN_inj {m : BDDManager} (hInv : Inv m) {i j : Nat} {n : BNode}
    (hi : getN m i = some n) (hj : getN m j = some n) : i = j := by
  exact List.get?_inj (getN_lt hi) hInv.nodup (hi.trans hj.symm)

/-- Canonicity: in a table satisfying the invariant, two valid references
denoting the same Boolean function are the same reference. -/
theorem canonicity {m : BDDManager} (hInv : Inv m) {i1 i2 : Nat}
    (h1 : i1 < m.node_list.length) (h2 : i2 < m.node_list.length)
    (hsem : ∀ ρ, evalRef m ρ i1 = evalRef m ρ i2) : i1 = i2 := by
  have main : ∀ s i1 i2, i1 + i2 = s → i1 < m.node_list.length →
      i2 < m.node_list.length → (∀ ρ, evalRef m ρ i1 = evalRef m ρ i2) →
      i1 = i2 := by
    intro s
    induction s using Nat.strong_induction_on with
    | _ s ih =>
      intro i1 i2 hs h1 h2 hsem
      obtain ⟨n1, hn1⟩ := getN_exists h1
      obtain ⟨n2, hn2⟩ := getN_exists h2
      cases n1 with
      | term b1 =>
        cases n2 with
        | term b2 =>
          have hb : b1 = b2 := by
            have := hsem (fun _ => true)
            rwa [evalRef_term _ hn1, evalRef_term _ hn2] at this
          subst hb
          exact getN_inj hInv hn1 hn2
        | dec v2 lo2 hi2 =>
          exfalso
          obtain ⟨hc1, hc2⟩ := hInv.dec_children i2 v2 lo2 hi2 hn2
          have hlosem : ∀ ρ, evalRef m ρ i1 = evalRef m ρ lo2 := by
            intro ρ
            obtain ⟨hlo, _⟩ := evalRef_restrict hInv hn2 ρ
            rw [hlo, ← hsem (fun w => if w = v2 then false else ρ w),
              evalRef_term _ hn1, evalRef_term _ hn1]
          have hhisem : ∀ ρ, evalRef m ρ i1 = evalRef m ρ hi2 := by
            intro ρ
            obtain ⟨_, hhi⟩ := evalRef_restrict hInv hn2 ρ
            rw [hhi, ← hsem (fun w => if w = v2 then true else ρ w),
              evalRef_term _ hn1, evalRef_term _ hn1]
          have e1 : i1 = lo2 := ih (i1 + lo2) (by omega) i1 lo2 (Eq.refl _)
            h1 (by omega) hlosem
          have e2 : i1 = hi2 := ih (i1 + hi2) (by omega) i1 hi2 (Eq.refl _)
            h1 (by omega) hhisem
          exact hInv.dec_ne i2 v2 lo2 hi2 hn2 (e1 ▸ e2)
      | dec v1 lo1 hi1 =>
        cases n2 with
        | term b2 =>
          exfalso
          obtain ⟨hc1, hc2⟩ := hInv.dec_children i1 v1 lo1 hi1 hn1
          have hlosem : ∀ ρ, evalRef m ρ lo1 = evalRef m ρ i2 := by
            intro ρ
            obtain ⟨hlo, _⟩ := evalRef_restrict hInv hn1 ρ
            rw [hlo, hsem (fun w => if w = v1 then false else ρ w),
              evalRef_term _ hn2, evalRef_term _ hn2]
          have hhisem : ∀ ρ, evalRef m ρ hi1 = evalRef m ρ i2 := by
            intro ρ
            obtain ⟨_, hhi⟩ := evalRef_restrict hInv hn1 ρ
            rw [hhi, hsem (fun w => if w = v1 then true else ρ w),
              evalRef_term _ hn2, evalRef_term _ hn2]
          have e1 : lo1 = i2 := ih (lo1 + i2) (by omega) lo1 i2 (Eq.refl _)
            (by omega) h2 hlosem
          have e2 : hi1 = i2 := ih (hi1 + i2) (by omega) hi1 i2 (Eq.refl _)
            (by omega) h2 hhisem
          exact hInv.dec_ne i1 v1 lo1 hi1 hn1 (e1.trans e2.symm)
        | dec v2 lo2 hi2 =>
          obtain ⟨hc11, hc12⟩ := hInv.dec_children i1 v1 lo1 hi1 hn1
          obtain ⟨hc21, hc22⟩ := hInv.dec_children i2 v2 lo2 hi2 hn2
          have hv1top : levelW m v1 ≠ ⊤ := levelW_ne_top (hInv.dec_var i1 v1 lo1 hi1 hn1)
          rcases lt_trichotomy (levelW m v1) (levelW m v2) with hlt | heqv | hgt
          · exfalso
            have hrl2 : levelW m v1 < refLevel m i2 := by
              rw [refLevel_dec hn2]
              exact hlt
            have hlosem : ∀ ρ, evalRef m ρ lo1 = evalRef m ρ i2 := by
              intro ρ
              obtain ⟨hlo, _⟩ := evalRef_restrict hInv hn1 ρ
              rw [hlo, hsem (fun w => if w = v1 then false else ρ w),
                evalRef_indep hInv false ρ i2 h2 hrl2]
            have hhisem : ∀ ρ, evalRef m ρ hi1 = evalRef m ρ i2 := by
              intro ρ
              obtain ⟨_, hhi⟩ := evalRef_restrict hInv hn1 ρ
              rw [hhi, hsem (fun w => if w = v1 then true else ρ w),
                evalRef_indep hInv true ρ i2 h2 hrl2]
            have e1 : lo1 = i2 := ih (lo1 + i2) (by omega) lo1 i2 (Eq.refl _)
              (by omega) h2 hlosem
            have e2 : hi1 = i2 := ih (hi1 + i2) (by omega) hi1 i2 (Eq.refl _)
              (by omega) h2 hhisem
            exact hInv.dec_ne i1 v1 lo1 hi1 hn1 (e1.trans e2.symm)
          · have hveq : v1 = v2 := levelW_inj heqv hv1top
            subst hveq
            have hlosem : ∀ ρ, evalRef m ρ lo1 = evalRef m ρ lo2 := by
              intro ρ
              obtain ⟨hlo1e, _⟩ := evalRef_restrict hInv hn1 ρ
              obtain ⟨hlo2e, _⟩ := evalRef_restrict hInv hn2 ρ
              rw [hlo1e, hlo2e, hsem]
            have hhisem : ∀ ρ, evalRef m ρ hi1 = evalRef m ρ hi2 := by
              intro ρ
              obtain ⟨_, hhi1e⟩ := evalRef_restrict hInv hn1 ρ
              obtain ⟨_, hhi2e⟩ := evalRef_restrict hInv hn2 ρ
              rw [hhi1e, hhi2e, hsem]
            have e1 : lo1 = lo2 := ih (lo1 + lo2) (by omega) lo1 lo2 (Eq.refl _)
              (by omega) (by omega) hlosem
            have e2 : hi1 = hi2 := ih (hi1 + hi2) (by omega) hi1 hi2 (Eq.refl _)
              (by omega) (by omega) hhisem
            subst e1
            subst e2
            exact getN_inj hInv hn1 hn2
          · exfalso
            have hv2top : levelW m v2 ≠ ⊤ :=
              levelW_ne_top (hInv.dec_var i2 v2 lo2 hi2 hn2)
            have hrl1 : levelW m v2 < refLevel m i1 := by
              rw [refLevel_dec hn1]
              exact hgt
            have hlosem : ∀ ρ, evalRef m ρ i1 = evalRef m ρ lo2 := by
              intro ρ
              obtain ⟨hlo, _⟩ := evalRef_restrict hInv hn2 ρ
              rw [hlo, ← hsem (fun w => if w = v2 then false else ρ w),
                evalRef_indep hInv false ρ i1 h1 hrl1]
            have hhisem : ∀ ρ, evalRef m ρ i1 = evalRef m ρ hi2 := by
              intro ρ
              obtain ⟨_, hhi⟩ := evalRef_restrict hInv hn2 ρ
              rw [hhi, ← hsem (fun w => if w = v2 then true else ρ w),
                evalRef_indep hInv true ρ i1 h1 hrl1]
            have e1 : i1 = lo2 := ih (i1 + lo2) (by omega) i1 lo2 (Eq.refl _)
              h1 (by omega) hlosem
            have e2 : i1 = hi2 := ih (i1 + hi2) (by omega) i1 hi2 (Eq.refl _)
              h1 (by omega) hhisem
            exact hInv.dec_ne i2 v2 lo2 hi2 hn2 (e1 ▸ e2)
  exact main (i1 + i2) i1 i2 (Eq.refl _) h1 h2 hsem

/-! ### Correctness of the Apply engine -/

/-- Combined fuel-sufficiency and correctness of `apply_not`: on a valid
reference of an invariant state, any fuel greater than the index computes the
same result as the wrapper, and the call succeeds, extends the store,
preserves the invariant, and returns a valid reference of level at least the
input's that denotes the complement function. -/
theorem apply_not_spec :
    ∀ i (m : BDDManager), Inv m → i < m.node_list.length →
    (∀ fuel, i < fuel → apply_notF fuel m i = apply_not m i) ∧
    (∃ m2 r, apply_not m i = some (m2, r) ∧ Extends m m2 ∧ Inv m2 ∧
      r < m2.node_list.length ∧ refLevel m i ≤ refLevel m2 r ∧
      ∀ ρ, evalRef m2 ρ r = ! evalRef m ρ i) := by
  intro i
  induction i using Nat.strong_induction_on with
  | _ i ih =>
    intro m hInv hi
    obtain ⟨n, hn⟩ := getN_exists hi
    cases n with
    | term b =>
      have key : ∀ fuel, i < fuel →
          apply_notF fuel m i = some (m, if b then FALSE else TRUE) := by
        intro fuel hf
        match fuel with
        | f+1 =>
          unfold apply_notF
          rw [hn]
      constructor
      · intro fuel hf
        rw [key fuel hf]
        exact (key (i+1) (by omega)).symm
      · refine ⟨m, if b then FALSE else TRUE, key (i+1) (by omega), Extends.rfl m,
          hInv, ?_, ?_, ?_⟩
        · have := hInv.two_le
          cases b <;> simp [FALSE, TRUE] <;> omega
        · have htop : refLevel m (if b = true then FALSE else TRUE) = ⊤ := by
            cases b
            · simpa [FALSE, TRUE] using refLevel_term hInv.true_at
            · simpa [FALSE, TRUE] using refLevel_term hInv.false_at
          rw [refLevel_term hn, htop]
        · intro ρ
          rw [evalRef_term ρ hn]
          cases b
          · simpa using evalRef_true hInv ρ
          · simpa using evalRef_false hInv ρ
    | dec v lo hi2 =>
      obtain ⟨hc1, hc2⟩ := hInv.dec_children i v lo hi2 hn
      obtain ⟨ho1, ho2⟩ := hInv.dec_ord i v lo hi2 hn
      have hvv := hInv.dec_var i v lo hi2 hn
      obtain ⟨congr_lo, m1, nl, heq_lo, hext1, hInv1, hnl, hlev_lo, heval_lo⟩ :=
        ih lo hc1 m hInv (by omega)
      obtain ⟨congr_hi, m2, nh, heq_hi, hext2, hInv2, hnh, hlev_hi, heval_hi⟩ :=
        ih hi2 hc2 m1 hInv1 (by
          have := hext1.len_le
          omega)
      -- facts needed for make on m2
      have hnl2 : nl < m2.node_list.length := by
        have := hext2.len_le
        omega
      have hv2 : (var_level m2.variable_ordering v).isSome := by
        rw [hext2.var_level_eq, hext1.var_level_eq]
        exact hvv
      have hlw2 : levelW m2 v = levelW m v := by
        rw [hext2.levelW_eq, hext1.levelW_eq]
      have holo2 : levelW m2 v < refLevel m2 nl := by
        rw [hlw2, refLevel_stab hext2 hnl]
        exact lt_of_lt_of_le ho1 hlev_lo
      have hohi2 : levelW m2 v < refLevel m2 nh := by
        rw [hlw2]
        refine lt_of_lt_of_le ?_ hlev_hi
        rw [refLevel_stab hext1 (by omega)]
        exact ho2
      obtain ⟨hext3, hInv3, hvalid3, hlev3, heval3⟩ :=
        make_spec hInv2 hnl2 hnh hv2 holo2 hohi2
      have key : ∀ fuel, i < fuel →
          apply_notF fuel m i = some (make m2 v nl nh) := by
        intro fuel hf
        match fuel with
        | f+1 =>
          unfold apply_notF
          rw [hn]
          dsimp only
          rw [congr_lo f (by omega), heq_lo]
          dsimp only
          rw [congr_hi f (by omega), heq_hi]
      constructor
      · intro fuel hf
        rw [key fuel hf]
        exact (key (i+1) (by omega)).symm
      · refine ⟨(make m2 v nl nh).1, (make m2 v nl nh).2, ?_, ?_, hInv3, hvalid3, ?_, ?_⟩
        · have := key (i+1) (by omega)
          exact this
        · exact (hext1.trans hext2).trans hext3
        · rw [refLevel_dec hn, ← hlw2]
          exact hlev3
        · intro ρ
          rw [heval3 ρ]
          rw [evalRef_dec hInv ρ hn]
          have e1 : evalRef m2 ρ nh = ! evalRef m ρ hi2 := by
            rw [heval_hi ρ, evalRef_stab hInv hInv1 hext1 ρ hi2 (by omega)]
          have e2 : evalRef m2 ρ nl = ! evalRef m ρ lo := by
            rw [evalRef_stab hInv1 hInv2 hext2 ρ nl hnl, heval_lo ρ]
          rw [e1, e2]
          cases ρ v <;> simp

/-- Soundness of `apply_not` on a valid reference of an invariant state. -/
theorem apply_not_sound {m : BDDManager} (hInv : Inv m) {i : Nat}
    (hi : i < m.node_list.length) :
    ∃ m2 r, apply_not m i = some (m2, r) ∧ Extends m m2 ∧ Inv m2 ∧
      r < m2.node_list.length ∧ refLevel m i ≤ refLevel m2 r ∧
      ∀ ρ, evalRef m2 ρ r = ! evalRef m ρ i :=
  (apply_not_spec i m hInv hi).2

/-- Combined fuel-sufficiency and correctness of `apply_and`, by induction on
`idx1 + idx2`: on valid references of an invariant state the call succeeds,
extends the store, preserves the invariant, and returns a valid reference of
level at least the minimum of the operands' levels that denotes the
conjunction. -/
theorem apply_and_spec :
    ∀ s i1 i2 (m : BDDManager), i1 + i2 = s → Inv m →
    i1 < m.node_list.length → i2 < m.node_list.length →
    (∀ fuel, i1 + i2 < fuel → apply_andF fuel m i1 i2 = apply_and m i1 i2) ∧
    (∃ m2 r, apply_and m i1 i2 = some (m2, r) ∧ Extends m m2 ∧ Inv m2 ∧
      r < m2.node_list.length ∧
      min (refLevel m i1) (refLevel m i2) ≤ refLevel m2 r ∧
      ∀ ρ, evalRef m2 ρ r = (evalRef m ρ i1 && evalRef m ρ i2)) := by
  intro s
  induction s using Nat.strong_induction_on with
  | _ s ih =>
    intro i1 i2 m hs hInv h1 h2
    obtain ⟨n1, hn1⟩ := getN_exists h1
    obtain ⟨n2, hn2⟩ := getN_exists h2
    by_cases h0 : i1 = FALSE ∨ i2 = FALSE
    · have key : ∀ fuel, i1 + i2 < fuel → apply_andF fuel m i1 i2 = some (m, FALSE) := by
        intro fuel hf
        match fuel with
        | f+1 =>
          unfold apply_andF
          rw [hn1, hn2]
          dsimp only
          rw [if_pos h0]
      constructor
      · intro fuel hf
        rw [key fuel hf]
        exact (key (i1 + i2 + 1) (by omega)).symm
      · refine ⟨m, FALSE, key (i1 + i2 + 1) (by omega), Extends.rfl m, hInv, ?_, ?_, ?_⟩
        · have := hInv.two_le
          simp only [FALSE]
          omega
        · show refLevel m i1 ⊓ refLevel m i2 ≤ refLevel m 0
          rw [refLevel_term hInv.false_at]
          exact le_top
        · intro ρ
          rw [evalRef_false hInv ρ]
          rcases h0 with h0 | h0
          · rw [h0, evalRef_false hInv ρ, Bool.false_and]
          · rw [h0, evalRef_false hInv ρ, Bool.and_false]
    · push_neg at h0
      obtain ⟨h10, h20⟩ := h0
      by_cases h11 : i1 = TRUE
      · have key : ∀ fuel, i1 + i2 < fuel → apply_andF fuel m i1 i2 = some (m, i2) := by
          intro fuel hf
          match fuel with
          | f+1 =>
            unfold apply_andF
            rw [hn1, hn2]
            dsimp only
            rw [if_neg (by push_neg; exact ⟨h10, h20⟩), if_pos h11]
        constructor
        · intro fuel hf
          rw [key fuel hf]
          exact (key (i1 + i2 + 1) (by omega)).symm
        · refine ⟨m, i2, key (i1 + i2 + 1) (by omega), Extends.rfl m, hInv, h2,
            min_le_right _ _, ?_⟩
          intro ρ
          rw [h11, evalRef_true hInv ρ, Bool.true_and]
      · by_cases h21 : i2 = TRUE
        · have key : ∀ fuel, i1 + i2 < fuel → apply_andF fuel m i1 i2 = some (m, i1) := by
            intro fuel hf
            match fuel with
            | f+1 =>
              unfold apply_andF
              rw [hn1, hn2]
              dsimp only
              rw [if_neg (by push_neg; exact ⟨h10, h20⟩), if_neg h11, if_pos h21]
          constructor
          · intro fuel hf
            rw [key fuel hf]
            exact (key (i1 + i2 + 1) (by omega)).symm
          · refine ⟨m, i1, key (i1 + i2 + 1) (by omega), Extends.rfl m, hInv, h1,
              min_le_left _ _, ?_⟩
            intro ρ
            rw [h21, evalRef_true hInv ρ, Bool.and_true]
        · -- both are decision nodes
          have hd1 : ∃ v1 lo1 hi1, n1 = BNode.dec v1 lo1 hi1 := by
            cases n1 with
            | term b =>
              rcases hInv.term_pos i1 b hn1 with e | e
              · exact absurd e h10
              · exact absurd e h11
            | dec v lo hi => exact ⟨v, lo, hi, Eq.refl _⟩
          have hd2 : ∃ v2 lo2 hi2, n2 = BNode.dec v2 lo2 hi2 := by
            cases n2 with
            | term b =>
              rcases hInv.term_pos i2 b hn2 with e | e
              · exact absurd e h20
              · exact absurd e h21
            | dec v lo hi => exact ⟨v, lo, hi, Eq.refl _⟩
          obtain ⟨v1, lo1, hi1, rfl⟩ := hd1
          obtain ⟨v2, lo2, hi2, rfl⟩ := hd2
          obtain ⟨hc11, hc12⟩ := hInv.dec_children i1 v1 lo1 hi1 hn1
          obtain ⟨hc21, hc22⟩ := hInv.dec_children i2 v2 lo2 hi2 hn2
          obtain ⟨ho11, ho12⟩ := hInv.dec_ord i1 v1 lo1 hi1 hn1
          obtain ⟨ho21, ho22⟩ := hInv.dec_ord i2 v2 lo2 hi2 hn2
          have hvv1 := hInv.dec_var i1 v1 lo1 hi1 hn1
          have hvv2 := hInv.dec_var i2 v2 lo2 hi2 hn2
          have hrl1 : refLevel m i1 = levelW m v1 := refLevel_dec hn1
          have hrl2 : refLevel m i2 = levelW m v2 := refLevel_dec hn2
          rcases lt_trichotomy (levelW m v1) (levelW m v2) with hlt | heqv | hgt
          · -- level1 < level2: split on v1 against the whole of i2
            obtain ⟨congr_a, ma, nl, heq_a, hext_a, hInv_a, hnl, hlev_a, heval_a⟩ :=
              ih (lo1 + i2) (by omega) lo1 i2 m (Eq.refl _) hInv (by omega) h2
            obtain ⟨congr_b, mb, nh, heq_b, hext_b, hInv_b, hnh, hlev_b, heval_b⟩ :=
              ih (hi1 + i2) (by omega) hi1 i2 ma (Eq.refl _) hInv_a
                (by have := hext_a.len_le; omega) (by have := hext_a.len_le; omega)
            have hnl_b : nl < mb.node_list.length := by
              have := hext_b.len_le
              omega
            have hvmb : (var_level mb.variable_ordering v1).isSome := by
              rw [hext_b.var_level_eq, hext_a.var_level_eq]
              exact hvv1
            have hlwb : levelW mb v1 = levelW m v1 := by
              rw [hext_b.levelW_eq, hext_a.levelW_eq]
            have hminlo : levelW m v1 < min (refLevel m lo1) (refLevel m i2) :=
              lt_min ho11 (by rw [hrl2]; exact hlt)
            have hminhi : levelW m v1 < min (refLevel m hi1) (refLevel m i2) :=
              lt_min ho12 (by rw [hrl2]; exact hlt)
            have hlev_a2 : min (refLevel ma lo1) (refLevel ma i2) =
                min (refLevel m lo1) (refLevel m i2) := by
              rw [refLevel_stab hext_a (by omega), refLevel_stab hext_a h2]
            have holo_b : levelW mb v1 < refLevel mb nl := by
              rw [hlwb, refLevel_stab hext_b hnl]
              exact lt_of_lt_of_le hminlo hlev_a
            have hohi_b : levelW mb v1 < refLevel mb nh := by
              rw [hlwb]
              refine lt_of_lt_of_le ?_ hlev_b
              rw [refLevel_stab hext_a (by omega), refLevel_stab hext_a h2]
              exact hminhi
            obtain ⟨hext_c, hInv_c, hvalid_c, hlev_c, heval_c⟩ :=
              make_spec hInv_b hnl_b hnh hvmb holo_b hohi_b
            have key : ∀ fuel, i1 + i2 < fuel →
                apply_andF fuel m i1 i2 = some (make mb v1 nl nh) := by
              intro fuel hf
              match fuel with
              | f+1 =>
                unfold apply_andF
                rw [hn1, hn2]
                dsimp only
                rw [if_neg (by push_neg; exact ⟨h10, h20⟩), if_neg h11, if_neg h21,
                  if_neg (ne_of_lt hlt), if_pos hlt]
                rw [congr_a f (by omega), heq_a]
                dsimp only
                rw [congr_b f (by omega), heq_b]
            constructor
            · intro fuel hf
              rw [key fuel hf]
              exact (key (i1 + i2 + 1) (by omega)).symm
            · refine ⟨(make mb v1 nl nh).1, (make mb v1 nl nh).2,
                key (i1 + i2 + 1) (by omega), (hext_a.trans hext_b).trans hext_c,
                hInv_c, hvalid_c, ?_, ?_⟩
              · have hfin : levelW m v1 ≤
                    refLevel (make mb v1 nl nh).1 (make mb v1 nl nh).2 := by
                  rw [← hlwb]
                  exact hlev_c
                rw [hrl1, hrl2]
                exact le_trans (min_le_left _ _) hfin
              · intro ρ
                rw [heval_c ρ]
                have e_nh : evalRef mb ρ nh = (evalRef m ρ hi1 && evalRef m ρ i2) := by
                  rw [heval_b ρ, evalRef_stab hInv hInv_a hext_a ρ hi1 (by omega),
                    evalRef_stab hInv hInv_a hext_a ρ i2 h2]
                have e_nl : evalRef mb ρ nl = (evalRef m ρ lo1 && evalRef m ρ i2) := by
                  rw [evalRef_stab hInv_a hInv_b hext_b ρ nl hnl, heval_a ρ]
                rw [e_nh, e_nl, evalRef_dec hInv ρ hn1]
                cases ρ v1 <;> simp
          · -- equal levels: same variable, recurse pairwise
            have hveq : v1 = v2 := levelW_inj heqv (levelW_ne_top hvv1)
            subst hveq
            obtain ⟨congr_a, ma, nl, heq_a, hext_a, hInv_a, hnl, hlev_a, heval_a⟩ :=
              ih (lo1 + lo2) (by omega) lo1 lo2 m (Eq.refl _) hInv (by omega) (by omega)
            obtain ⟨congr_b, mb, nh, heq_b, hext_b, hInv_b, hnh, hlev_b, heval_b⟩ :=
              ih (hi1 + hi2) (by omega) hi1 hi2 ma (Eq.refl _) hInv_a
                (by have := hext_a.len_le; omega) (by have := hext_a.len_le; omega)
            have hnl_b : nl < mb.node_list.length := by
              have := hext_b.len_le
              omega
            have hvmb : (var_level mb.variable_ordering v1).isSome := by
              rw [hext_b.var_level_eq, hext_a.var_level_eq]
              exact hvv1
            have hlwb : levelW mb v1 = levelW m v1 := by
              rw [hext_b.levelW_eq, hext_a.levelW_eq]
            have hminlo : levelW m v1 < min (refLevel m lo1) (refLevel m lo2) :=
              lt_min ho11 ho21
            have hminhi : levelW m v1 < min (refLevel m hi1) (refLevel m hi2) :=
              lt_min ho12 ho22
            have holo_b : levelW mb v1 < refLevel mb nl := by
              rw [hlwb, refLevel_stab hext_b hnl]
              exact lt_of_lt_of_le hminlo hlev_a
            have hohi_b : levelW mb v1 < refLevel mb nh := by
              rw [hlwb]
              refine lt_of_lt_of_le ?_ hlev_b
              rw [refLevel_stab hext_a (by omega), refLevel_stab hext_a (by omega)]
              exact hminhi
            obtain ⟨hext_c, hInv_c, hvalid_c, hlev_c, heval_c⟩ :=
              make_spec hInv_b hnl_b hnh hvmb holo_b hohi_b
            have key : ∀ fuel, i1 + i2 < fuel →
                apply_andF fuel m i1 i2 = some (make mb v1 nl nh) := by
              intro fuel hf
              match fuel with
              | f+1 =>
                unfold apply_andF
                rw [hn1, hn2]
                dsimp only
                rw [if_neg (by push_neg; exact ⟨h10, h20⟩), if_neg h11, if_neg h21,
                  if_pos heqv]
                rw [congr_a f (by omega), heq_a]
                dsimp only
                rw [congr_b f (by omega), heq_b]
            constructor
            · intro fuel hf
              rw [key fuel hf]
              exact (key (i1 + i2 + 1) (by omega)).symm
            · refine ⟨(make mb v1 nl nh).1, (make mb v1 nl nh).2,
                key (i1 + i2 + 1) (by omega), (hext_a.trans hext_b).trans hext_c,
                hInv_c, hvalid_c, ?_, ?_⟩
              · have hfin : levelW m v1 ≤
                    refLevel (make mb v1 nl nh).1 (make mb v1 nl nh).2 := by
                  rw [← hlwb]
                  exact hlev_c
                rw [hrl1, hrl2, ← heqv, min_self]
                exact hfin
              · intro ρ
                rw [heval_c ρ]
                have e_nh : evalRef mb ρ nh = (evalRef m ρ hi1 && evalRef m ρ hi2) := by
                  rw [heval_b ρ, evalRef_stab hInv hInv_a hext_a ρ hi1 (by omega),
                    evalRef_stab hInv hInv_a hext_a ρ hi2 (by omega)]
                have e_nl : evalRef mb ρ nl = (evalRef m ρ lo1 && evalRef m ρ lo2) := by
                  rw [evalRef_stab hInv_a hInv_b hext_b ρ nl hnl, heval_a ρ]
                rw [e_nh, e_nl, evalRef_dec hInv ρ hn1, evalRef_dec hInv ρ hn2]
                cases ρ v1 <;> simp
          · -- level2 < level1: split on v2 against the whole of i1
            obtain ⟨congr_a, ma, nl, heq_a, hext_a, hInv_a, hnl, hlev_a, heval_a⟩ :=
              ih (i1 + lo2) (by omega) i1 lo2 m (Eq.refl _) hInv h1 (by omega)
            obtain ⟨congr_b, mb, nh, heq_b, hext_b, hInv_b, hnh, hlev_b, heval_b⟩ :=
              ih (i1 + hi2) (by omega) i1 hi2 ma (Eq.refl _) hInv_a
                (by have := hext_a.len_le; omega) (by have := hext_a.len_le; omega)
            have hnl_b : nl < mb.node_list.length := by
              have := hext_b.len_le
              omega
            have hvmb : (var_level mb.variable_ordering v2).isSome := by
              rw [hext_b.var_level_eq, hext_a.var_level_eq]
              exact hvv2
            have hlwb : levelW mb v2 = levelW m v2 := by
              rw [hext_b.levelW_eq, hext_a.levelW_eq]
            have hminlo : levelW m v2 < min (refLevel m i1) (refLevel m lo2) :=
              lt_min (by rw [hrl1]; exact hgt) ho21
            have hminhi : levelW m v2 < min (refLevel m i1) (refLevel m hi2) :=
              lt_min (by rw [hrl1]; exact hgt) ho22
            have holo_b : levelW mb v2 < refLevel mb nl := by
              rw [hlwb, refLevel_stab hext_b hnl]
              exact lt_of_lt_of_le hminlo hlev_a
            have hohi_b : levelW mb v2 < refLevel mb nh := by
              rw [hlwb]
              refine lt_of_lt_of_le ?_ hlev_b
              rw [refLevel_stab hext_a h1, refLevel_stab hext_a (by omega)]
              exact hminhi
            obtain ⟨hext_c, hInv_c, hvalid_c, hlev_c, heval_c⟩ :=
              make_spec hInv_b hnl_b hnh hvmb holo_b hohi_b
            have key : ∀ fuel, i1 + i2 < fuel →
                apply_andF fuel m i1 i2 = some (make mb v2 nl nh) := by
              intro fuel hf
              match fuel with
              | f+1 =>
                unfold apply_andF
                rw [hn1, hn2]
                dsimp only
                rw [if_neg (by push_neg; exact ⟨h10, h20⟩), if_neg h11, if_neg h21,
                  if_neg (ne_of_gt hgt), if_neg (not_lt.mpr (le_of_lt hgt))]
                rw [congr_a f (by omega), heq_a]
                dsimp only
                rw [congr_b f (by omega), heq_b]
            constructor
            · intro fuel hf
              rw [key fuel hf]
              exact (key (i1 + i2 + 1) (by omega)).symm
            · refine ⟨(make mb v2 nl nh).1, (make mb v2 nl nh).2,
                key (i1 + i2 + 1) (by omega), (hext_a.trans hext_b).trans hext_c,
                hInv_c, hvalid_c, ?_, ?_⟩
              · have hfin : levelW m v2 ≤
                    refLevel (make mb v2 nl nh).1 (make mb v2 nl nh).2 := by
                  rw [← hlwb]
                  exact hlev_c
                rw [hrl1, hrl2]
                exact le_trans (min_le_right _ _) hfin
              · intro ρ
                rw [heval_c ρ]
                have e_nh : evalRef mb ρ nh = (evalRef m ρ i1 && evalRef m ρ hi2) := by
                  rw [heval_b ρ, evalRef_stab hInv hInv_a hext_a ρ i1 h1,
                    evalRef_stab hInv hInv_a hext_a ρ hi2 (by omega)]
                have e_nl : evalRef mb ρ nl = (evalRef m ρ i1 && evalRef m ρ lo2) := by
                  rw [evalRef_stab hInv_a hInv_b hext_b ρ nl hnl, heval_a ρ]
                rw [e_nh, e_nl, evalRef_dec hInv ρ hn2]
                cases ρ v2 <;> simp

/-- Soundness of `apply_and` on valid references of an invariant state. -/
theorem apply_and_sound {m : BDDManager} (hInv : Inv m) {i1 i2 : Nat}
    (h1 : i1 < m.node_list.length) (h2 : i2 < m.node_list.length) :
    ∃ m2 r, apply_and m i1 i2 = some (m2, r) ∧ Extends m m2 ∧ Inv m2 ∧
      r < m2.node_list.length ∧
      min (refLevel m i1) (refLevel m i2) ≤ refLevel m2 r ∧
      ∀ ρ, evalRef m2 ρ r = (evalRef m ρ i1 && evalRef m ρ i2) :=
  (apply_and_spec (i1 + i2) i1 i2 m (Eq.refl _) hInv h1 h2).2

/-- Operation `apply_or` succeeds on valid references, extends the store, and preserves
the invariant. -/
theorem apply_or_sound {m : BDDManager} (hInv : Inv m) {i1 i2 : Nat}
    (h1 : i1 < m.node_list.length) (h2 : i2 < m.node_list.length) :
    ∃ m2 r, apply_or m i1 i2 = some (m2, r) ∧ Extends m m2 ∧ Inv m2 ∧
      r < m2.node_list.length := by
  obtain ⟨ma, na, ea, xa, ia, la, _, _⟩ := apply_not_sound hInv h1
  obtain ⟨mb, nb, eb, xb, ib, lb, _, _⟩ := apply_not_sound ia
    (show i2 < ma.node_list.length by have := xa.len_le; omega)
  obtain ⟨mc, nc, ec, xc, ic, lc, _, _⟩ := apply_and_sound ib
    (show na < mb.node_list.length by have := xb.len_le; omega) lb
  obtain ⟨md, nd, ed, xd, id_, ld, _, _⟩ := apply_not_sound ic lc
  refine ⟨md, nd, ?_, ((xa.trans xb).trans xc).trans xd, id_, ld⟩
  simp [apply_or, ea, eb, ec, ed]

/-- Operation `apply_xor` succeeds on valid references, extends the store, and preserves
the invariant. -/
theorem apply_xor_sound {m : BDDManager} (hInv : Inv m) {i1 i2 : Nat}
    (h1 : i1 < m.node_list.length) (h2 : i2 < m.node_list.length) :
    ∃ m2 r, apply_xor m i1 i2 = some (m2, r) ∧ Extends m m2 ∧ Inv m2 ∧
      r < m2.node_list.length := by
  obtain ⟨ma, na, ea, xa, ia, la, _, _⟩ := apply_not_sound hInv h2
  obtain ⟨mb, nb, eb, xb, ib, lb, _, _⟩ := apply_and_sound ia
    (show i1 < ma.node_list.length by have := xa.len_le; omega) la
  obtain ⟨mc, nc, ec, xc, ic, lc, _, _⟩ := apply_not_sound ib
    (show i1 < mb.node_list.length by have := (xa.trans xb).len_le; omega)
  obtain ⟨md, nd, ed, xd, id_, ld, _, _⟩ := apply_and_sound ic lc
    (show i2 < mc.node_list.length by have := ((xa.trans xb).trans xc).len_le; omega)
  obtain ⟨me, ne_, ee, xe, ie, le_⟩ := apply_or_sound id_
    (show nb < md.node_list.length by have := (xc.trans xd).len_le; omega) ld
  refine ⟨me, ne_, ?_, (((xa.trans xb).trans xc).trans xd).trans xe, ie, le_⟩
  simp [apply_xor, ea, eb, ec, ed, ee]

/-- Operation `apply_implies` succeeds on valid references, extends the store, and
preserves the invariant. -/
theorem apply_implies_sound {m : BDDManager} (hInv : Inv m) {i1 i2 : Nat}
    (h1 : i1 < m.node_list.length) (h2 : i2 < m.node_list.length) :
    ∃ m2 r, apply_implies m i1 i2 = some (m2, r) ∧ Extends m m2 ∧ Inv m2 ∧
      r < m2.node_list.length := by
  obtain ⟨ma, na, ea, xa, ia, la, _, _⟩ := apply_not_sound hInv h1
  obtain ⟨mb, nb, eb, xb, ib, lb⟩ := apply_or_sound ia la
    (show i2 < ma.node_list.length by have := xa.len_le; omega)
  refine ⟨mb, nb, ?_, xa.trans xb, ib, lb⟩
  simp [apply_implies, ea, eb]

/-- Operation `apply_iff` succeeds on valid references, extends the store, and preserves
the invariant. -/
theorem apply_iff_sound {m : BDDManager} (hInv : Inv m) {i1 i2 : Nat}
    (h1 : i1 < m.node_list.length) (h2 : i2 < m.node_list.length) :
    ∃ m2 r, apply_iff m i1 i2 = some (m2, r) ∧ Extends m m2 ∧ Inv m2 ∧
      r < m2.node_list.length := by
  obtain ⟨ma, na, ea, xa, ia, la⟩ := apply_implies_sound hInv h1 h2
  obtain ⟨mb, nb, eb, xb, ib, lb⟩ := apply_implies_sound ia
    (show i2 < ma.node_list.length by have := xa.len_le; omega)
    (show i1 < ma.node_list.length by have := xa.len_le; omega)
  obtain ⟨mc, nc, ec, xc, ic, lc, _, _⟩ := apply_and_sound ib
    (show na < mb.node_list.length by have := xb.len_le; omega) lb
  refine ⟨mc, nc, ?_, (xa.trans xb).trans xc, ic, lc⟩
  simp [apply_iff, ea, eb, ec]

/-- Operation `create_variable` on a known variable succeeds, extends the store,
preserves the invariant, returns a valid reference, and denotes the variable
itself. -/
theorem create_variable_sound {m : BDDManager} (hInv : Inv m) {v : String}
    (hv : (var_level m.variable_ordering v).isSome) :
    ∃ m2 r, create_variable m v = some (m2, r) ∧ Extends m m2 ∧ Inv m2 ∧
      r < m2.node_list.length ∧ ∀ ρ, evalRef m2 ρ r = ρ v := by
  have h0 : (0 : Nat) < m.node_list.length := by have := hInv.two_le; omega
  have h1 : (1 : Nat) < m.node_list.length := by have := hInv.two_le; omega
  have htop0 : refLevel m 0 = ⊤ := refLevel_term hInv.false_at
  have htop1 : refLevel m 1 = ⊤ := refLevel_term hInv.true_at
  have hlt : levelW m v < (⊤ : WithTop Nat) :=
    lt_top_iff_ne_top.mpr (levelW_ne_top hv)
  obtain ⟨hext, hInv2, hvalid, _, heval⟩ :=
    @make_spec m v FALSE TRUE hInv h0 h1 hv
      (by show levelW m v < refLevel m 0; rw [htop0]; exact hlt)
      (by show levelW m v < refLevel m 1; rw [htop1]; exact hlt)
  refine ⟨(make m v FALSE TRUE).1, (make m v FALSE TRUE).2, ?_, hext, hInv2, hvalid, ?_⟩
  · unfold create_variable
    rw [if_pos hv]
  · intro ρ
    rw [heval ρ]
    rw [evalRef_true hInv ρ, evalRef_false hInv ρ]
    cases ρ v <;> simp

theorem create_variable_eq_some {m : BDDManager} {v : String} {p : BDDManager × Nat}
    (h : create_variable m v = some p) :
    (var_level m.variable_ordering v).isSome := by
  unfold create_variable at h
  by_cases hv : (var_level m.variable_ordering v).isSome
  · exact hv
  · rw [if_neg hv] at h
    exact Option.noConfusion h

/-! ### The parser preserves the table invariant -/

/-- Invariant preservation for all twelve parser functions, by induction on
fuel: whenever a parse step succeeds starting from an invariant state, the
final state extends it, satisfies the invariant, and the returned reference is
valid. -/
theorem parse_funs_inv : ∀ fuel : Nat,
    (∀ m ts m2 r ts2, Inv m → _parse_iff fuel m ts = .ok (m2, r, ts2) →
      Extends m m2 ∧ Inv m2 ∧ r < m2.node_list.length) ∧
    (∀ m left ts m2 r ts2, Inv m → left < m.node_list.length →
      _parse_iff_loop fuel m left ts = .ok (m2, r, ts2) →
      Extends m m2 ∧ Inv m2 ∧ r < m2.node_list.length) ∧
    (∀ m ts m2 r ts2, Inv m → _parse_implies fuel m ts = .ok (m2, r, ts2) →
      Extends m m2 ∧ Inv m2 ∧ r < m2.node_list.length) ∧
    (∀ m left ts m2 r ts2, Inv m → left < m.node_list.length →
      _parse_implies_loop fuel m left ts = .ok (m2, r, ts2) →
      Extends m m2 ∧ Inv m2 ∧ r < m2.node_list.length) ∧
    (∀ m ts m2 r ts2, Inv m → _parse_xor fuel m ts = .ok (m2, r, ts2) →
      Extends m m2 ∧ Inv m2 ∧ r < m2.node_list.length) ∧
    (∀ m left ts m2 r ts2, Inv m → left < m.node_list.length →
      _parse_xor_loop fuel m left ts = .ok (m2, r, ts2) →
      Extends m m2 ∧ Inv m2 ∧ r < m2.node_list.length) ∧
    (∀ m ts m2 r ts2, Inv m → _parse_or fuel m ts = .ok (m2, r, ts2) →
      Extends m m2 ∧ Inv m2 ∧ r < m2.node_list.length) ∧
    (∀ m left ts m2 r ts2, Inv m → left < m.node_list.length →
      _parse_or_loop fuel m left ts = .ok (m2, r, ts2) →
      Extends m m2 ∧ Inv m2 ∧ r < m2.node_list.length) ∧
    (∀ m ts m2 r ts2, Inv m → _parse_and fuel m ts = .ok (m2, r, ts2) →
      Extends m m2 ∧ Inv m2 ∧ r < m2.node_list.length) ∧
    (∀ m left ts m2 r ts2, Inv m → left < m.node_list.length →
      _parse_and_loop fuel m left ts = .ok (m2, r, ts2) →
      Extends m m2 ∧ Inv m2 ∧ r < m2.node_list.length) ∧
    (∀ m ts m2 r ts2, Inv m → _parse_not fuel m ts = .ok (m2, r, ts2) →
      Extends m m2 ∧ Inv m2 ∧ r < m2.node_list.length) ∧
    (∀ m ts m2 r ts2, Inv m → _parse_primary fuel m ts = .ok (m2, r, ts2) →
      Extends m m2 ∧ Inv m2 ∧ r < m2.node_list.length) := by
  intro fuel
  induction fuel with
  | zero =>
    refine ⟨?_, ?_, ?_, ?_, ?_, ?_, ?_, ?_, ?_, ?_, ?_, ?_⟩ <;>
      first
        | (intro m ts m2 r ts2 hInv h; exact Except.noConfusion h)
        | (intro m left ts m2 r ts2 hInv hleft h; exact Except.noConfusion h)
  | succ fuel ih =>
    obtain ⟨ih_iff, ih_iffL, ih_imp, ih_impL, ih_xor, ih_xorL, ih_or, ih_orL,
      ih_and, ih_andL, ih_not, ih_prim⟩ := ih
    have comp_iff : ∀ m ts m2 r ts2, Inv m →
        _parse_iff (fuel+1) m ts = .ok (m2, r, ts2) →
        Extends m m2 ∧ Inv m2 ∧ r < m2.node_list.length := by
      intro m ts m2 r ts2 hInv h
      unfold _parse_iff at h
      cases hsub : _parse_implies fuel m ts with
      | error e =>
        simp only [hsub] at h
        exact Except.noConfusion h
      | ok p =>
        obtain ⟨m1, left, ts1⟩ := p
        simp only [hsub] at h
        obtain ⟨hx1, hi1, hl1⟩ := ih_imp m ts m1 left ts1 hInv hsub
        obtain ⟨hx2, hi2, hl2⟩ := ih_iffL m1 left ts1 m2 r ts2 hi1 hl1 h
        exact ⟨hx1.trans hx2, hi2, hl2⟩
    have comp_iff_loop : ∀ m left ts m2 r ts2, Inv m → left < m.node_list.length →
        _parse_iff_loop (fuel+1) m left ts = .ok (m2, r, ts2) →
        Extends m m2 ∧ Inv m2 ∧ r < m2.node_list.length := by
      intro m left ts m2 r ts2 hInv hleft h
      unfold _parse_iff_loop at h
      split at h
      · rename_i ts1
        cases hsub : _parse_implies fuel m ts1 with
        | error e =>
          simp only [hsub] at h
          exact Except.noConfusion h
        | ok p =>
          obtain ⟨m1, right, ts12⟩ := p
          simp only [hsub] at h
          obtain ⟨hx1, hi1, hl1⟩ := ih_imp m ts1 m1 right ts12 hInv hsub
          have hleft1 : left < m1.node_list.length := by
            have := hx1.len_le
            omega
          obtain ⟨mm, l2, happ, hxa, hia, hla⟩ := apply_iff_sound hi1 hleft1 hl1
          simp only [happ] at h
          obtain ⟨hx2, hi2, hl2⟩ := ih_iffL mm l2 ts12 m2 r ts2 hia hla h
          exact ⟨(hx1.trans hxa).trans hx2, hi2, hl2⟩
      · simp only [Except.ok.injEq, Prod.mk.injEq] at h
        obtain ⟨rfl, rfl, rfl⟩ := h
        exact ⟨Extends.rfl m, hInv, hleft⟩
    have comp_implies : ∀ m ts m2 r ts2, Inv m →
        _parse_implies (fuel+1) m ts = .ok (m2, r, ts2) →
        Extends m m2 ∧ Inv m2 ∧ r < m2.node_list.length := by
      intro m ts m2 r ts2 hInv h
      unfold _parse_implies at h
      cases hsub : _parse_xor fuel m ts with
      | error e =>
        simp only [hsub] at h
        exact Except.noConfusion h
      | ok p =>
        obtain ⟨m1, left, ts1⟩ := p
        simp only [hsub] at h
        obtain ⟨hx1, hi1, hl1⟩ := ih_xor m ts m1 left ts1 hInv hsub
        obtain ⟨hx2, hi2, hl2⟩ := ih_impL m1 left ts1 m2 r ts2 hi1 hl1 h
        exact ⟨hx1.trans hx2, hi2, hl2⟩
    have comp_implies_loop : ∀ m left ts m2 r ts2, Inv m → left < m.node_list.length →
        _parse_implies_loop (fuel+1) m left ts = .ok (m2, r, ts2) →
        Extends m m2 ∧ Inv m2 ∧ r < m2.node_list.length := by
      intro m left ts m2 r ts2 hInv hleft h
      unfold _parse_implies_loop at h
      split at h
      · rename_i ts1
        cases hsub : _parse_xor fuel m ts1 with
        | error e =>
          simp only [hsub] at h
          exact Except.noConfusion h
        | ok p =>
          obtain ⟨m1, right, ts12⟩ := p
          simp only [hsub] at h
          obtain ⟨hx1, hi1, hl1⟩ := ih_xor m ts1 m1 right ts12 hInv hsub
          have hleft1 : left < m1.node_list.length := by
            have := hx1.len_le
            omega
          obtain ⟨mm, l2, happ, hxa, hia, hla⟩ := apply_implies_sound hi1 hleft1 hl1
          simp only [happ] at h
          obtain ⟨hx2, hi2, hl2⟩ := ih_impL mm l2 ts12 m2 r ts2 hia hla h
          exact ⟨(hx1.trans hxa).trans hx2, hi2, hl2⟩
      · simp only [Except.ok.injEq, Prod.mk.injEq] at h
        obtain ⟨rfl, rfl, rfl⟩ := h
        exact ⟨Extends.rfl m, hInv, hleft⟩
    have comp_xor : ∀ m ts m2 r ts2, Inv m →
        _parse_xor (fuel+1) m ts = .ok (m2, r, ts2) →
        Extends m m2 ∧ Inv m2 ∧ r < m2.node_list.length := by
      intro m ts m2 r ts2 hInv h
      unfold _parse_xor at h
      cases hsub : _parse_or fuel m ts with
      | error e =>
        simp only [hsub] at h
        exact Except.noConfusion h
      | ok p =>
        obtain ⟨m1, left, ts1⟩ := p
        simp only [hsub] at h
        obtain ⟨hx1, hi1, hl1⟩ := ih_or m ts m1 left ts1 hInv hsub
        obtain ⟨hx2, hi2, hl2⟩ := ih_xorL m1 left ts1 m2 r ts2 hi1 hl1 h
        exact ⟨hx1.trans hx2, hi2, hl2⟩
    have comp_xor_loop : ∀ m left ts m2 r ts2, Inv m → left < m.node_list.length →
        _parse_xor_loop (fuel+1) m left ts = .ok (m2, r, ts2) →
        Extends m m2 ∧ Inv m2 ∧ r < m2.node_list.length := by
      intro m left ts m2 r ts2 hInv hleft h
      unfold _parse_xor_loop at h
      split at h
      · rename_i ts1
        cases hsub : _parse_or fuel m ts1 with
        | error e =>
          simp only [hsub] at h
          exact Except.noConfusion h
        | ok p =>
          obtain ⟨m1, right, ts12⟩ := p
          simp only [hsub] at h
          obtain ⟨hx1, hi1, hl1⟩ := ih_or m ts1 m1 right ts12 hInv hsub
          have hleft1 : left < m1.node_list.length := by
            have := hx1.len_le
            omega
          obtain ⟨mm, l2, happ, hxa, hia, hla⟩ := apply_xor_sound hi1 hleft1 hl1
          simp only [happ] at h
          obtain ⟨hx2, hi2, hl2⟩ := ih_xorL mm l2 ts12 m2 r ts2 hia hla h
          exact ⟨(hx1.trans hxa).trans hx2, hi2, hl2⟩
      · simp only [Except.ok.injEq, Prod.mk.injEq] at h
        obtain ⟨rfl, rfl, rfl⟩ := h
        exact ⟨Extends.rfl m, hInv, hleft⟩
    have comp_or : ∀ m ts m2 r ts2, Inv m →
        _parse_or (fuel+1) m ts = .ok (m2, r, ts2) →
        Extends m m2 ∧ Inv m2 ∧ r < m2.node_list.length := by
      intro m ts m2 r ts2 hInv h
      unfold _parse_or at h
      cases hsub : _parse_and fuel m ts with
      | error e =>
        simp only [hsub] at h
        exact Except.noConfusion h
      | ok p =>
        obtain ⟨m1, left, ts1⟩ := p
        simp only [hsub] at h
        obtain ⟨hx1, hi1, hl1⟩ := ih_and m ts m1 left ts1 hInv hsub
        obtain ⟨hx2, hi2, hl2⟩ := ih_orL m1 left ts1 m2 r ts2 hi1 hl1 h
        exact ⟨hx1.trans hx2, hi2, hl2⟩
    have comp_or_loop : ∀ m left ts m2 r ts2, Inv m → left < m.node_list.length →
        _parse_or_loop (fuel+1) m left ts = .ok (m2, r, ts2) →
        Extends m m2 ∧ Inv m2 ∧ r < m2.node_list.length := by
      intro m left ts m2 r ts2 hInv hleft h
      unfold _parse_or_loop at h
      split at h
      · rename_i ts1
        cases hsub : _parse_and fuel m ts1 with
        | error e =>
          simp only [hsub] at h
          exact Except.noConfusion h
        | ok p =>
          obtain ⟨m1, right, ts12⟩ := p
          simp only [hsub] at h
          obtain ⟨hx1, hi1, hl1⟩ := ih_and m ts1 m1 right ts12 hInv hsub
          have hleft1 : left < m1.node_list.length := by
            have := hx1.len_le
            omega
          obtain ⟨mm, l2, happ, hxa, hia, hla⟩ := apply_or_sound hi1 hleft1 hl1
          simp only [happ] at h
          obtain ⟨hx2, hi2, hl2⟩ := ih_orL mm l2 ts12 m2 r ts2 hia hla h
          exact ⟨(hx1.trans hxa).trans hx2, hi2, hl2⟩
      · simp only [Except.ok.injEq, Prod.mk.injEq] at h
        obtain ⟨rfl, rfl, rfl⟩ := h
        exact ⟨Extends.rfl m, hInv, hleft⟩
    have comp_and : ∀ m ts m2 r ts2, Inv m →
        _parse_and (fuel+1) m ts = .ok (m2, r, ts2) →
        Extends m m2 ∧ Inv m2 ∧ r < m2.node_list.length := by
      intro m ts m2 r ts2 hInv h
      unfold _parse_and at h
      cases hsub : _parse_not fuel m ts with
      | error e =>
        simp only [hsub] at h
        exact Except.noConfusion h
      | ok p =>
        obtain ⟨m1, left, ts1⟩ := p
        simp only [hsub] at h
        obtain ⟨hx1, hi1, hl1⟩ := ih_not m ts m1 left ts1 hInv hsub
        obtain ⟨hx2, hi2, hl2⟩ := ih_andL m1 left ts1 m2 r ts2 hi1 hl1 h
        exact ⟨hx1.trans hx2, hi2, hl2⟩
    have comp_and_loop : ∀ m left ts m2 r ts2, Inv m → left < m.node_list.length →
        _parse_and_loop (fuel+1) m left ts = .ok (m2, r, ts2) →
        Extends m m2 ∧ Inv m2 ∧ r < m2.node_list.length := by
      intro m left ts m2 r ts2 hInv hleft h
      unfold _parse_and_loop at h
      split at h
      · rename_i ts1
        cases hsub : _parse_not fuel m ts1 with
        | error e =>
          simp only [hsub] at h
          exact Except.noConfusion h
        | ok p =>
          obtain ⟨m1, right, ts12⟩ := p
          simp only [hsub] at h
          obtain ⟨hx1, hi1, hl1⟩ := ih_not m ts1 m1 right ts12 hInv hsub
          have hleft1 : left < m1.node_list.length := by
            have := hx1.len_le
            omega
          obtain ⟨mm, l2, happ, hxa, hia, hla, _, _⟩ := apply_and_sound hi1 hleft1 hl1
          simp only [happ] at h
          obtain ⟨hx2, hi2, hl2⟩ := ih_andL mm l2 ts12 m2 r ts2 hia hla h
          exact ⟨(hx1.trans hxa).trans hx2, hi2, hl2⟩
      · simp only [Except.ok.injEq, Prod.mk.injEq] at h
        obtain ⟨rfl, rfl, rfl⟩ := h
        exact ⟨Extends.rfl m, hInv, hleft⟩
    have comp_not : ∀ m ts m2 r ts2, Inv m →
        _parse_not (fuel+1) m ts = .ok (m2, r, ts2) →
        Extends m m2 ∧ Inv m2 ∧ r < m2.node_list.length := by
      intro m ts m2 r ts2 hInv h
      unfold _parse_not at h
      split at h
      · rename_i ts1
        cases hsub : _parse_not fuel m ts1 with
        | error e =>
          simp only [hsub] at h
          exact Except.noConfusion h
        | ok p =>
          obtain ⟨m1, operand, ts12⟩ := p
          simp only [hsub] at h
          obtain ⟨hx1, hi1, hl1⟩ := ih_not m ts1 m1 operand ts12 hInv hsub
          obtain ⟨mm, rr, happ, hxa, hia, hla, _, _⟩ := apply_not_sound hi1 hl1
          simp only [happ] at h
          simp only [Except.ok.injEq, Prod.mk.injEq] at h
          obtain ⟨rfl, rfl, rfl⟩ := h
          exact ⟨hx1.trans hxa, hia, hla⟩
      · exact ih_prim m ts m2 r ts2 hInv h
    have comp_prim : ∀ m ts m2 r ts2, Inv m →
        _parse_primary (fuel+1) m ts = .ok (m2, r, ts2) →
        Extends m m2 ∧ Inv m2 ∧ r < m2.node_list.length := by
      intro m ts m2 r ts2 hInv h
      unfold _parse_primary at h
      split at h
      · exact Except.noConfusion h
      · rename_i ts1
        cases hsub : _parse_iff fuel m ts1 with
        | error e =>
          simp only [hsub] at h
          exact Except.noConfusion h
        | ok p =>
          obtain ⟨m1, res, tsr⟩ := p
          simp only [hsub] at h
          obtain ⟨hx1, hi1, hl1⟩ := ih_iff m ts1 m1 res tsr hInv hsub
          split at h
          · simp only [Except.ok.injEq, Prod.mk.injEq] at h
            obtain ⟨rfl, rfl, rfl⟩ := h
            exact ⟨hx1, hi1, hl1⟩
          · exact Except.noConfusion h
      · rename_i t ts1 hne
        by_cases hident : isIdentToken t
        · rw [if_pos hident] at h
          cases hcv : create_variable m t with
          | none =>
            simp only [hcv] at h
            exact Except.noConfusion h
          | some p =>
            obtain ⟨m1, r1⟩ := p
            simp only [hcv] at h
            have hknown := create_variable_eq_some hcv
            obtain ⟨mm, rr, hcv2, hxa, hia, hla, _⟩ := create_variable_sound hInv hknown
            rw [hcv] at hcv2
            simp only [Option.some.injEq, Prod.mk.injEq] at hcv2
            obtain ⟨e1, e2⟩ := hcv2
            subst e1
            subst e2
            simp only [Except.ok.injEq, Prod.mk.injEq] at h
            obtain ⟨rfl, rfl, rfl⟩ := h
            exact ⟨hxa, hia, hla⟩
        · rw [if_neg hident] at h
          exact Except.noConfusion h
    exact ⟨comp_iff, comp_iff_loop, comp_implies, comp_implies_loop, comp_xor,
      comp_xor_loop, comp_or, comp_or_loop, comp_and, comp_and_loop, comp_not,
      comp_prim⟩

/-- A successful `parse` extends the store, preserves the invariant, and
returns a valid reference. -/
theorem parse_inv {m : BDDManager} (hInv : Inv m) {s : String}
    {m2 : BDDManager} {r : Nat} (h : parse m s = .ok (m2, r)) :
    Extends m m2 ∧ Inv m2 ∧ r < m2.node_list.length := by
  unfold parse at h
  cases hsub : _parse_iff (13 * (tokenize (s.data.filter (fun c => c ≠ ' '))).length + 13)
      m (tokenize (s.data.filter (fun c => c ≠ ' '))) with
  | error e =>
    simp only [hsub] at h
    exact Except.noConfusion h
  | ok p =>
    obtain ⟨m1, result, rest⟩ := p
    simp only [hsub] at h
    obtain ⟨hx, hi, hl⟩ := (parse_funs_inv _).1 m _ m1 result rest hInv hsub
    cases rest with
    | nil =>
      injection h with h1
      injection h1 with e1 e2
      subst e1
      subst e2
      exact ⟨hx, hi, hl⟩
    | cons t ts => exact Except.noConfusion h

/-! ### Determinism-packaged invariant preservation for each public op -/

theorem apply_not_defined {m : BDDManager} {i : Nat} {p : BDDManager × Nat}
    (h : apply_not m i = some p) : i < m.node_list.length := by
  unfold apply_not apply_notF at h
  cases hn : getN m i with
  | none =>
    simp [hn] at h
  | some n => exact getN_lt hn

theorem apply_and_defined {m : BDDManager} {i1 i2 : Nat} {p : BDDManager × Nat}
    (h : apply_and m i1 i2 = some p) :
    i1 < m.node_list.length ∧ i2 < m.node_list.length := by
  unfold apply_and apply_andF at h
  cases hn1 : getN m i1 with
  | none => simp [hn1] at h
  | some n1 =>
    cases hn2 : getN m i2 with
    | none => simp [hn1, hn2] at h
    | some n2 => exact ⟨getN_lt hn1, getN_lt hn2⟩

theorem apply_not_inv {m m2 : BDDManager} {i r : Nat} (hInv : Inv m)
    (h : apply_not m i = some (m2, r)) :
    Extends m m2 ∧ Inv m2 ∧ r < m2.node_list.length := by
  have hi := apply_not_defined h
  obtain ⟨m2', r', h', hx, hi2, hl, _, _⟩ := apply_not_sound hInv hi
  rw [h] at h'
  injection h' with e
  injection e with e1 e2
  subst e1
  subst e2
  exact ⟨hx, hi2, hl⟩

theorem apply_and_inv {m m2 : BDDManager} {i1 i2 r : Nat} (hInv : Inv m)
    (h : apply_and m i1 i2 = some (m2, r)) :
    Extends m m2 ∧ Inv m2 ∧ r < m2.node_list.length := by
  obtain ⟨h1, h2⟩ := apply_and_defined h
  obtain ⟨m2', r', h', hx, hi2, hl, _, _⟩ := apply_and_sound hInv h1 h2
  rw [h] at h'
  injection h' with e
  injection e with e1 e2
  subst e1
  subst e2
  exact ⟨hx, hi2, hl⟩

theorem apply_or_inv {m m2 : BDDManager} {i1 i2 r : Nat} (hInv : Inv m)
    (h : apply_or m i1 i2 = some (m2, r)) :
    Extends m m2 ∧ Inv m2 ∧ r < m2.node_list.length := by
  unfold apply_or at h
  cases e1 : apply_not m i1 with
  | none => simp [e1] at h
  | some p1 =>
    obtain ⟨ma, na⟩ := p1
    simp [e1] at h
    obtain ⟨hxa, hia, hla⟩ := apply_not_inv hInv e1
    cases e2 : apply_not ma i2 with
    | none => simp [e2] at h
    | some p2 =>
      obtain ⟨mb, nb⟩ := p2
      simp [e2] at h
      obtain ⟨hxb, hib, hlb⟩ := apply_not_inv hia e2
      cases e3 : apply_and mb na nb with
      | none => simp [e3] at h
      | some p3 =>
        obtain ⟨mc, nc⟩ := p3
        simp [e3] at h
        obtain ⟨hxc, hic, hlc⟩ := apply_and_inv hib e3
        obtain ⟨hxd, hid, hld⟩ := apply_not_inv hic h
        exact ⟨((hxa.trans hxb).trans hxc).trans hxd, hid, hld⟩

theorem apply_xor_inv {m m2 : BDDManager} {i1 i2 r : Nat} (hInv : Inv m)
    (h : apply_xor m i1 i2 = some (m2, r)) :
    Extends m m2 ∧ Inv m2 ∧ r < m2.node_list.length := by
  unfold apply_xor at h
  cases e1 : apply_not m i2 with
  | none => simp [e1] at h
  | some p1 =>
    obtain ⟨ma, na⟩ := p1
    simp [e1] at h
    obtain ⟨hxa, hia, hla⟩ := apply_not_inv hInv e1
    cases e2 : apply_and ma i1 na with
    | none => simp [e2] at h
    | some p2 =>
      obtain ⟨mb, nb⟩ := p2
      simp [e2] at h
      obtain ⟨hxb, hib, hlb⟩ := apply_and_inv hia e2
      cases e3 : apply_not mb i1 with
      | none => simp [e3] at h
      | some p3 =>
        obtain ⟨mc, nc⟩ := p3
        simp [e3] at h
        obtain ⟨hxc, hic, hlc⟩ := apply_not_inv hib e3
        cases e4 : apply_and mc nc i2 with
        | none => simp [e4] at h
        | some p4 =>
          obtain ⟨md, nd⟩ := p4
          simp [e4] at h
          obtain ⟨hxd, hid, hld⟩ := apply_and_inv hic e4
          obtain ⟨hxe, hie, hle⟩ := apply_or_inv hid h
          exact ⟨(((hxa.trans hxb).trans hxc).trans hxd).trans hxe, hie, hle⟩

theorem apply_implies_inv {m m2 : BDDManager} {i1 i2 r : Nat} (hInv : Inv m)
    (h : apply_implies m i1 i2 = some (m2, r)) :
    Extends m m2 ∧ Inv m2 ∧ r < m2.node_list.length := by
  unfold apply_implies at h
  cases e1 : apply_not m i1 with
  | none => simp [e1] at h
  | some p1 =>
    obtain ⟨ma, na⟩ := p1
    simp [e1] at h
    obtain ⟨hxa, hia, hla⟩ := apply_not_inv hInv e1
    obtain ⟨hxb, hib, hlb⟩ := apply_or_inv hia h
    exact ⟨hxa.trans hxb, hib, hlb⟩

theorem apply_iff_inv {m m2 : BDDManager} {i1 i2 r : Nat} (hInv : Inv m)
    (h : apply_iff m i1 i2 = some (m2, r)) :
    Extends m m2 ∧ Inv m2 ∧ r < m2.node_list.length := by
  unfold apply_iff at h
  cases e1 : apply_implies m i1 i2 with
  | none => simp [e1] at h
  | some p1 =>
    obtain ⟨ma, na⟩ := p1
    simp [e1] at h
    obtain ⟨hxa, hia, hla⟩ := apply_implies_inv hInv e1
    cases e2 : apply_implies ma i2 i1 with
    | none => simp [e2] at h
    | some p2 =>
      obtain ⟨mb, nb⟩ := p2
      simp [e2] at h
      obtain ⟨hxb, hib, hlb⟩ := apply_implies_inv hia e2
      obtain ⟨hxc, hic, hlc⟩ := apply_and_inv hib h
      exact ⟨(hxa.trans hxb).trans hxc, hic, hlc⟩

theorem create_variable_inv {m m2 : BDDManager} {v : String} {r : Nat}
    (hInv : Inv m) (h : create_variable m v = some (m2, r)) :
    Extends m m2 ∧ Inv m2 ∧ r < m2.node_list.length := by
  have hknown := create_variable_eq_some h
  obtain ⟨m2', r', h', hx, hi2, hl, _⟩ := create_variable_sound hInv hknown
  rw [h] at h'
  injection h' with e
  injection e with e1 e2
  subst e1
  subst e2
  exact ⟨hx, hi2, hl⟩


/-- Every reachable manager state satisfies the full table invariant. -/
theorem reachable_inv {m : BDDManager} (h : Reachable m) : Inv m := by
  induction h with
  | init ordering => exact init_Inv ordering
  | create_variable _ hop ih => exact (create_variable_inv ih hop).2.1
  | apply_not _ hop ih => exact (apply_not_inv ih hop).2.1
  | apply_and _ hop ih => exact (apply_and_inv ih hop).2.1
  | apply_or _ hop ih => exact (apply_or_inv ih hop).2.1
  | apply_xor _ hop ih => exact (apply_xor_inv ih hop).2.1
  | apply_implies _ hop ih => exact (apply_implies_inv ih hop).2.1
  | apply_iff _ hop ih => exact (apply_iff_inv ih hop).2.1
  | parse _ hop ih => exact (parse_inv ih hop).2.1

/-! ### Commutativity of the Apply-AND at the reference level -/

/-- Operation `apply_and` is literally symmetric in its two arguments on valid
references of an invariant state: the two runs create the same nodes in the
same order and return the same reference. -/
theorem apply_and_comm : ∀ s a b (m : BDDManager), a + b = s → Inv m →
    a < m.node_list.length → b < m.node_list.length →
    apply_and m a b = apply_and m b a := by
  intro s
  induction s using Nat.strong_induction_on with
  | _ s ih =>
    intro a b m hs hInv ha hb
    obtain ⟨na, hna⟩ := getN_exists ha
    obtain ⟨nb, hnb⟩ := getN_exists hb
    show apply_andF (a+b+1) m a b = apply_andF (b+a+1) m b a
    rw [show b+a+1 = a+b+1 by omega]
    unfold apply_andF
    rw [hna, hnb]
    dsimp only
    by_cases h0 : a = FALSE ∨ b = FALSE
    · rw [if_pos h0, if_pos (Or.symm h0)]
    · rw [if_neg h0, if_neg (fun hsym => h0 (Or.symm hsym))]
      push_neg at h0
      obtain ⟨ha0, hb0⟩ := h0
      by_cases ha1 : a = TRUE
      · by_cases hb1 : b = TRUE
        · rw [if_pos ha1, if_pos hb1, ha1, hb1]
        · rw [if_pos ha1, if_neg hb1, if_pos ha1]
      · by_cases hb1 : b = TRUE
        · rw [if_neg ha1, if_pos hb1, if_pos hb1]
        · rw [if_neg ha1, if_neg hb1, if_neg hb1, if_neg ha1]
          -- both decision nodes
          have hda : ∃ va loa hia, na = BNode.dec va loa hia := by
            cases na with
            | term c =>
              rcases hInv.term_pos a c hna with e | e
              · exact absurd e ha0
              · exact absurd e ha1
            | dec v lo hi => exact ⟨v, lo, hi, Eq.refl _⟩
          have hdb : ∃ vb lob hib, nb = BNode.dec vb lob hib := by
            cases nb with
            | term c =>
              rcases hInv.term_pos b c hnb with e | e
              · exact absurd e hb0
              · exact absurd e hb1
            | dec v lo hi => exact ⟨v, lo, hi, Eq.refl _⟩
          obtain ⟨va, loa, hia_, rfl⟩ := hda
          obtain ⟨vb, lob, hib_, rfl⟩ := hdb
          dsimp only
          obtain ⟨hca1, hca2⟩ := hInv.dec_children a va loa hia_ hna
          obtain ⟨hcb1, hcb2⟩ := hInv.dec_children b vb lob hib_ hnb
          have hka := hInv.dec_var a va loa hia_ hna
          rcases lt_trichotomy (levelW m va) (levelW m vb) with hlt | heqv | hgt
          · rw [if_neg (ne_of_lt hlt), if_pos hlt,
              if_neg (Ne.symm (ne_of_lt hlt)), if_neg (not_lt.mpr (le_of_lt hlt))]
            have c1 : apply_andF (a+b) m loa b = apply_and m loa b :=
              (apply_and_spec (loa + b) loa b m (Eq.refl _) hInv (by omega) hb).1
                (a+b) (by omega)
            have c1s : apply_andF (a+b) m b loa = apply_and m b loa :=
              (apply_and_spec (b + loa) b loa m (Eq.refl _) hInv hb (by omega)).1
                (a+b) (by omega)
            have swap1 : apply_and m loa b = apply_and m b loa :=
              ih (loa + b) (by omega) loa b m (Eq.refl _) hInv (by omega) hb
            rw [c1, c1s, ← swap1]
            obtain ⟨ma, nl, heqa, hxa, hia2, hla2, _, _⟩ := apply_and_sound hInv
              (show loa < m.node_list.length by omega) hb
            rw [heqa]
            dsimp only
            have hlena := hxa.len_le
            have c2 : apply_andF (a+b) ma hia_ b = apply_and ma hia_ b :=
              (apply_and_spec (hia_ + b) hia_ b ma (Eq.refl _) hia2 (by omega)
                (by omega)).1 (a+b) (by omega)
            have c2s : apply_andF (a+b) ma b hia_ = apply_and ma b hia_ :=
              (apply_and_spec (b + hia_) b hia_ ma (Eq.refl _) hia2 (by omega)
                (by omega)).1 (a+b) (by omega)
            have swap2 : apply_and ma hia_ b = apply_and ma b hia_ :=
              ih (hia_ + b) (by omega) hia_ b ma (Eq.refl _) hia2 (by omega) (by omega)
            rw [c2, c2s, ← swap2]
          · have hveq : va = vb := levelW_inj heqv (levelW_ne_top hka)
            subst hveq
            rw [if_pos heqv, if_pos heqv.symm]
            have c1 : apply_andF (a+b) m loa lob = apply_and m loa lob :=
              (apply_and_spec (loa + lob) loa lob m (Eq.refl _) hInv (by omega)
                (by omega)).1 (a+b) (by omega)
            have c1s : apply_andF (a+b) m lob loa = apply_and m lob loa :=
              (apply_and_spec (lob + loa) lob loa m (Eq.refl _) hInv (by omega)
                (by omega)).1 (a+b) (by omega)
            have swap1 : apply_and m loa lob = apply_and m lob loa :=
              ih (loa + lob) (by omega) loa lob m (Eq.refl _) hInv (by omega) (by omega)
            rw [c1, c1s, ← swap1]
            obtain ⟨ma, nl, heqa, hxa, hia2, hla2, _, _⟩ := apply_and_sound hInv
              (show loa < m.node_list.length by omega)
              (show lob < m.node_list.length by omega)
            rw [heqa]
            dsimp only
            have hlena := hxa.len_le
            have c2 : apply_andF (a+b) ma hia_ hib_ = apply_and ma hia_ hib_ :=
              (apply_and_spec (hia_ + hib_) hia_ hib_ ma (Eq.refl _) hia2 (by omega)
                (by omega)).1 (a+b) (by omega)
            have c2s : apply_andF (a+b) ma hib_ hia_ = apply_and ma hib_ hia_ :=
              (apply_and_spec (hib_ + hia_) hib_ hia_ ma (Eq.refl _) hia2 (by omega)
                (by omega)).1 (a+b) (by omega)
            have swap2 : apply_and ma hia_ hib_ = apply_and ma hib_ hia_ :=
              ih (hia_ + hib_) (by omega) hia_ hib_ ma (Eq.refl _) hia2 (by omega)
                (by omega)
            rw [c2, c2s, ← swap2]
          · rw [if_neg (Ne.symm (ne_of_lt hgt)), if_neg (not_lt.mpr (le_of_lt hgt)),
              if_neg (ne_of_lt hgt), if_pos hgt]
            have c1 : apply_andF (a+b) m a lob = apply_and m a lob :=
              (apply_and_spec (a + lob) a lob m (Eq.refl _) hInv ha (by omega)).1
                (a+b) (by omega)
            have c1s : apply_andF (a+b) m lob a = apply_and m lob a :=
              (apply_and_spec (lob + a) lob a m (Eq.refl _) hInv (by omega) ha).1
                (a+b) (by omega)
            have swap1 : apply_and m a lob = apply_and m lob a :=
              ih (a + lob) (by omega) a lob m (Eq.refl _) hInv ha (by omega)
            rw [c1, c1s, ← swap1]
            obtain ⟨ma, nl, heqa, hxa, hia2, hla2, _, _⟩ := apply_and_sound hInv ha
              (show lob < m.node_list.length by omega)
            rw [heqa]
            dsimp only
            have hlena := hxa.len_le
            have c2 : apply_andF (a+b) ma a hib_ = apply_and ma a hib_ :=
              (apply_and_spec (a + hib_) a hib_ ma (Eq.refl _) hia2 (by omega)
                (by omega)).1 (a+b) (by omega)
            have c2s : apply_andF (a+b) ma hib_ a = apply_and ma hib_ a :=
              (apply_and_spec (hib_ + a) hib_ a ma (Eq.refl _) hia2 (by omega)
                (by omega)).1 (a+b) (by omega)
            have swap2 : apply_and ma a hib_ = apply_and ma hib_ a :=
              ih (a + hib_) (by omega) a hib_ ma (Eq.refl _) hia2 (by omega) (by omega)
            rw [c2, c2s, ← swap2]

/-! ### The claims -/

/-- Claim C1 (canonicity): for every reachable manager and every two formula
strings that `parse` accepts in sequence on it, if the two returned references
denote the same Boolean function then they are the identical integer
reference. -/
theorem C1_canonicity {m m1 m2 : BDDManager} {s1 s2 : String} {r1 r2 : Nat}
    (hreach : Reachable m)
    (h1 : parse m s1 = .ok (m1, r1)) (h2 : parse m1 s2 = .ok (m2, r2))
    (hequiv : ∀ ρ, evalRef m1 ρ r1 = evalRef m2 ρ r2) : r1 = r2 := by
  have hInv := reachable_inv hreach
  obtain ⟨hx1, hInv1, hl1⟩ := parse_inv hInv h1
  obtain ⟨hx2, hInv2, hl2⟩ := parse_inv hInv1 h2
  have hsem : ∀ ρ, evalRef m2 ρ r1 = evalRef m2 ρ r2 := by
    intro ρ
    rw [evalRef_stab hInv1 hInv2 hx2 ρ r1 hl1]
    exact hequiv ρ
  exact canonicity hInv2 (lt_of_lt_of_le hl1 hx2.len_le) hl2 hsem

/-- Witness for C1: parsing the tautologies `a | ~a` and `b -> b` on the same
manager yields the identical reference. -/
theorem C1_canonicity_witness : (1 : Nat) = 1 :=
  @C1_canonicity (init ["a", "b"])
    { variable_ordering := ["a", "b"],
      node_list := [BNode.term false, BNode.term true,
        BNode.dec ("a") 0 1, BNode.dec ("a") 1 0] }
    { variable_ordering := ["a", "b"],
      node_list := [BNode.term false, BNode.term true,
        BNode.dec ("a") 0 1, BNode.dec ("a") 1 0,
        BNode.dec ("b") 0 1, BNode.dec ("b") 1 0] }
    ("a | ~a") ("b -> b") 1 1
    (Reachable.init ["a", "b"]) (Eq.refl _) (Eq.refl _) (fun ρ => Eq.refl _)

/-- Claim C2 (tautology/contradiction detection): on a manager with ordering
`["a"]`, `parse "a | ~a"` returns the TRUE terminal reference 1 and
`parse "a & ~a"` the FALSE terminal reference 0; index 0 holds the FALSE
terminal and index 1 the TRUE terminal from initialization. -/
theorem C2_tautology_contradiction :
    (∃ m1, parse (init ["a"]) ("a | ~a") = .ok (m1, 1)) ∧
    (∃ m2, parse (init ["a"]) ("a & ~a") = .ok (m2, 0)) ∧
    getN (init ["a"]) 0 = some (BNode.term false) ∧
    getN (init ["a"]) 1 = some (BNode.term true) :=
  ⟨⟨_, Eq.refl _⟩, ⟨_, Eq.refl _⟩, Eq.refl _, Eq.refl _⟩

/-- Claim C3 (table invariant): in every reachable manager state, every stored
decision node tests a variable at a level strictly below the levels of both
children (terminals counting as level infinity), has distinct children, and no
two stored decision nodes share the same (variable, low, high) triple. -/
theorem C3_table_invariant {m : BDDManager} (h : Reachable m) :
    (∀ i v lo hi, getN m i = some (BNode.dec v lo hi) →
      levelW m v < refLevel m lo ∧ levelW m v < refLevel m hi) ∧
    (∀ i v lo hi, getN m i = some (BNode.dec v lo hi) → lo ≠ hi) ∧
    (∀ i j v lo hi, getN m i = some (BNode.dec v lo hi) →
      getN m j = some (BNode.dec v lo hi) → i = j) := by
  have hInv := reachable_inv h
  exact ⟨fun i v lo hi hn => hInv.dec_ord i v lo hi hn,
    fun i v lo hi hn => hInv.dec_ne i v lo hi hn,
    fun i j v lo hi hn1 hn2 => getN_inj hInv hn1 hn2⟩

/-- Witness for C3, at the freshly initialized manager. -/
theorem C3_table_invariant_witness :
    (∀ i v lo hi, getN (init ["a"]) i = some (BNode.dec v lo hi) →
      levelW (init ["a"]) v < refLevel (init ["a"]) lo ∧
      levelW (init ["a"]) v < refLevel (init ["a"]) hi) ∧
    (∀ i v lo hi, getN (init ["a"]) i = some (BNode.dec v lo hi) → lo ≠ hi) ∧
    (∀ i j v lo hi, getN (init ["a"]) i = some (BNode.dec v lo hi) →
      getN (init ["a"]) j = some (BNode.dec v lo hi) → i = j) :=
  C3_table_invariant (Reachable.init ["a"])

/-- Claim C4 (double negation): in every reachable state, applying `apply_not`
twice to a valid reference succeeds and returns exactly the original
reference. -/
theorem C4_double_negation {m : BDDManager} (h : Reachable m) {x : Nat}
    (hx : x < m.node_list.length) :
    ∃ m1 r1 m2, apply_not m x = some (m1, r1) ∧ apply_not m1 r1 = some (m2, x) := by
  have hInv := reachable_inv h
  obtain ⟨m1, r1, e1, hx1, hInv1, hl1, _, heval1⟩ := apply_not_sound hInv hx
  obtain ⟨m2, r2, e2, hx2, hInv2, hl2, _, heval2⟩ := apply_not_sound hInv1 hl1
  refine ⟨m1, r1, m2, e1, ?_⟩
  have hx_m2 : x < m2.node_list.length := lt_of_lt_of_le hx (hx1.trans hx2).len_le
  have hsem : ∀ ρ, evalRef m2 ρ r2 = evalRef m2 ρ x := by
    intro ρ
    rw [heval2 ρ, heval1 ρ, Bool.not_not]
    exact (evalRef_stab hInv hInv2 (hx1.trans hx2) ρ x hx).symm
  have hr2 : r2 = x := canonicity hInv2 hl2 hx_m2 hsem
  rw [← hr2]
  exact e2

/-- Witness for C4, negating the FALSE terminal of a fresh manager twice. -/
theorem C4_double_negation_witness :
    ∃ m1 r1 m2, apply_not (init ["a"]) 0 = some (m1, r1) ∧
      apply_not m1 r1 = some (m2, 0) :=
  C4_double_negation (Reachable.init ["a"]) (by decide)

/-- Claim C5 (termination of the Apply engine): in every reachable state, on
every pair of valid references, `apply_not` and `apply_and` terminate with a
result (the embedded recursions succeed within their fuel, which bounds the
recursion depth by the strictly decreasing node indices). -/
theorem C5_apply_termination {m : BDDManager} (h : Reachable m) {i1 i2 : Nat}
    (h1 : i1 < m.node_list.length) (h2 : i2 < m.node_list.length) :
    (apply_not m i1).isSome = true ∧ (apply_and m i1 i2).isSome = true := by
  have hInv := reachable_inv h
  obtain ⟨m1, r1, e1, _⟩ := apply_not_sound hInv h1
  obtain ⟨m2, r2, e2, _⟩ := apply_and_sound hInv h1 h2
  constructor
  · rw [e1]
    rfl
  · rw [e2]
    rfl

/-- Witness for C5 at the two terminals of a fresh manager. -/
theorem C5_apply_termination_witness :
    (apply_not (init ["a"]) 0).isSome = true ∧
    (apply_and (init ["a"]) 0 1).isSome = true :=
  C5_apply_termination (Reachable.init ["a"]) (by decide) (by decide)

/-- Claim C7 (unknown-variable contract): `create_variable` fails exactly when
the name is not in the configured ordering, otherwise returns
`make (name, FALSE, TRUE)`; and the parser propagates the failure, so
`parse "a & z"` on ordering `["a", "b"]` fails with UnknownVariable. -/
theorem C7_unknown_variable (m : BDDManager) (v : String) :
    (create_variable m v = none ↔ v ∉ m.variable_ordering) ∧
    (v ∈ m.variable_ordering → create_variable m v = some (make m v FALSE TRUE)) ∧
    parse (init ["a", "b"]) ("a & z") = .error (.unknownVariable ("z")) := by
  refine ⟨?_, ?_, Eq.refl _⟩
  · unfold create_variable
    by_cases hv : (var_level m.variable_ordering v).isSome
    · rw [if_pos hv]
      simp [var_level_isSome_iff.mp hv]
    · rw [if_neg hv]
      simp only [true_iff]
      intro hmem
      exact hv (var_level_isSome_iff.mpr hmem)
  · intro hmem
    unfold create_variable
    rw [if_pos (var_level_isSome_iff.mpr hmem)]

/-- Witness for C7 on a concrete manager and variable. -/
theorem C7_unknown_variable_witness :
    (create_variable (init ["a", "b"]) ("a") = none ↔
      ("a" : String) ∉ (init ["a", "b"]).variable_ordering) ∧
    (("a" : String) ∈ (init ["a", "b"]).variable_ordering →
      create_variable (init ["a", "b"]) ("a") =
        some (make (init ["a", "b"]) ("a") FALSE TRUE)) ∧
    parse (init ["a", "b"]) ("a & z") = .error (.unknownVariable ("z")) :=
  C7_unknown_variable (init ["a", "b"]) ("a")

/-- Counterexample to claim C8 as stated: `get_node` at the negative index -1
of a fresh manager does not fail; Python list indexing counts from the end and
returns the TRUE terminal stored at the last position. -/
theorem C8_counterexample :
    get_node (init ["a"]) (-1) = some (BNode.term true) := Eq.refl _

/-- Claim C8 (amended): `get_node ref` fails exactly when `ref` is at or
beyond the table size or below the negative table size (Python list
indexing); every issued (non-negative, in-range) reference returns its stored
node. -/
theorem C8_out_of_range (m : BDDManager) (i : Int) :
    (get_node m i = none ↔
      (m.node_list.length : Int) ≤ i ∨ i < -(m.node_list.length : Int)) ∧
    (∀ j : Nat, j < m.node_list.length → get_node m (j : Int) = getN m j) := by
  constructor
  · unfold get_node
    by_cases hneg : i < 0
    · rw [if_pos hneg]
      by_cases hj : (m.node_list.length : Int) + i < 0
      · rw [if_pos hj]
        simp only [eq_self_iff_true, true_iff]
        right
        omega
      · rw [if_neg hj, List.get?_eq_none]
        omega
    · rw [if_neg hneg]
      rw [if_neg (by omega), List.get?_eq_none]
      omega
  · intro j hj
    unfold get_node getN
    rw [if_neg (by omega), if_neg (by omega)]
    simp

/-- Witness for C8 (amended) at a fresh manager and index -1 (hypothesis-free
instantiation; the second conjunct's guard is discharged at index 0). -/
theorem C8_out_of_range_witness :
    ((get_node (init ["a"]) (-1) = none ↔
      ((init ["a"]).node_list.length : Int) ≤ -1 ∨
        (-1 : Int) < -((init ["a"]).node_list.length : Int)) ∧
    (∀ j : Nat, j < (init ["a"]).node_list.length →
      get_node (init ["a"]) (j : Int) = getN (init ["a"]) j)) :=
  C8_out_of_range (init ["a"]) (-1)

/-- Counterexample to claim C9 as stated: only spaces are removed before
tokenization; a tab is instead dropped during tokenization and splits an
identifier.  With ordering `["ab"]`, `parse "a\tb"` fails with
UnknownVariable "a" while parse of the same string with all whitespace
removed succeeds with reference 2. -/
theorem C9_counterexample :
    parse (init ["ab"]) ("a\tb") = .error (.unknownVariable ("a")) ∧
    parse (init ["ab"])
        (String.mk (("a\tb" : String).data.filter (fun c => ¬ c.isWhitespace))) =
      .ok ({ variable_ordering := ["ab"],
             node_list := [BNode.term false, BNode.term true,
               BNode.dec ("ab") 0 1] }, 2) :=
  ⟨Eq.refl _, Eq.refl _⟩

/-- Claim C9 (amended): `parse` is insensitive to space characters only: for
every input, `parse s` behaves identically to `parse` of `s` with all space
characters removed (spaces are deleted before tokenization; tabs and newlines
are instead silently skipped by the tokenizer and act as token separators, so
they can change the result when they split an identifier). -/
theorem C9_space_insensitive (m : BDDManager) (s : String) :
    parse m s = parse m (String.mk (s.data.filter (fun c => c ≠ ' '))) := by
  unfold parse
  have hfilter : (String.mk (s.data.filter (fun c => c ≠ ' '))).data.filter
      (fun c => c ≠ ' ') = s.data.filter (fun c => c ≠ ' ') := by
    show (s.data.filter (fun c => c ≠ ' ')).filter (fun c => c ≠ ' ') =
      s.data.filter (fun c => c ≠ ' ')
    rw [List.filter_filter]
    simp
  rw [hfilter]

/-- Claim C10 (implicit, AND commutative at the reference level): in every
reachable state, for valid references `a` and `b`, `apply_and a b` and
`apply_and b a` return the same result (same final state and same
reference). -/
theorem C10_and_commutative {m : BDDManager} (h : Reachable m) {a b : Nat}
    (ha : a < m.node_list.length) (hb : b < m.node_list.length) :
    apply_and m a b = apply_and m b a :=
  apply_and_comm (a + b) a b m (Eq.refl _) (reachable_inv h) ha hb

/-- Witness for C10 at the two terminals of a fresh manager. -/
theorem C10_and_commutative_witness :
    apply_and (init ["a"]) 0 1 = apply_and (init ["a"]) 1 0 :=
  C10_and_commutative (Reachable.init ["a"]) (by decide) (by decide)

/-! ### The grammar, and completeness of the parser -/





theorem identOK_ext {m m2 : BDDManager} (hext : Extends m m2) {ts : List String}
    (h : identOK m ts) : identOK m2 ts := by
  intro t ht hid
  rw [hext.var_level_eq]
  exact h t ht hid

theorem identOK_sub {m : BDDManager} {ts1 ts2 : List String}
    (hsub : ∀ t ∈ ts1, t ∈ ts2) (h : identOK m ts2) : identOK m ts1 :=
  fun t ht hid => h t (hsub t ht) hid

/-- A nonempty-chunk decomposition of a level-`k+1` derivation: a first
level-`k` chunk followed by operator-separated level-`k` chunks, as the
parser's `while` loop consumes them. -/
theorem gram_chunks : ∀ {n : Nat} {ts : List String}, Gram n ts →
    ∀ k, n = k + 1 → 1 ≤ k →
    ∃ (c : List String) (cs : List (List String)),
      Gram k c ∧ (∀ x ∈ cs, Gram k x) ∧
      ts = c ++ (cs.map (fun x => opTok n :: x)).join := by
  intro n ts h
  induction h with
  | var ht => intro k hn hk; omega
  | paren _ _ => intro k hn hk; omega
  | neg _ _ => intro k hn hk; omega
  | lift hk5 hg ihg =>
    intro k hn hk1
    have : _ = k := Nat.succ_injective hn
    subst this
    exact ⟨_, [], hg, by simp, by simp⟩
  | @app k0 ts1 ts2 hk1 hk5 hg1 hg2 ih1 ih2 =>
    intro k hn hk
    have : k0 = k := Nat.succ_injective hn
    subst this
    obtain ⟨c, cs, hc, hcs, hts⟩ := ih1 _ (Eq.refl _) hk1
    refine ⟨c, cs ++ [ts2], hc, ?_, ?_⟩
    · intro x hx
      rcases List.mem_append.mp hx with hx | hx
      · exact hcs x hx
      · rw [List.mem_singleton.mp hx]
        exact hg2
    · rw [hts]
      simp



/-! Definitional unfolding equations for the parser functions at a literal
head token (these hold by `rfl`: the kernel evaluates the literal string
comparison). -/

theorem _parse_iff_eq (fuel : Nat) (m : BDDManager) (ts : List String) :
    _parse_iff (fuel+1) m ts =
      match _parse_implies fuel m ts with
      | .error e => .error e
      | .ok (m1, left, ts1) => _parse_iff_loop fuel m1 left ts1 := rfl

theorem _parse_implies_eq (fuel : Nat) (m : BDDManager) (ts : List String) :
    _parse_implies (fuel+1) m ts =
      match _parse_xor fuel m ts with
      | .error e => .error e
      | .ok (m1, left, ts1) => _parse_implies_loop fuel m1 left ts1 := rfl

theorem _parse_xor_eq (fuel : Nat) (m : BDDManager) (ts : List String) :
    _parse_xor (fuel+1) m ts =
      match _parse_or fuel m ts with
      | .error e => .error e
      | .ok (m1, left, ts1) => _parse_xor_loop fuel m1 left ts1 := rfl

theorem _parse_or_eq (fuel : Nat) (m : BDDManager) (ts : List String) :
    _parse_or (fuel+1) m ts =
      match _parse_and fuel m ts with
      | .error e => .error e
      | .ok (m1, left, ts1) => _parse_or_loop fuel m1 left ts1 := rfl

theorem _parse_and_eq (fuel : Nat) (m : BDDManager) (ts : List String) :
    _parse_and (fuel+1) m ts =
      match _parse_not fuel m ts with
      | .error e => .error e
      | .ok (m1, left, ts1) => _parse_and_loop fuel m1 left ts1 := rfl

theorem _parse_iff_loop_op (fuel : Nat) (m : BDDManager) (left : Nat)
    (ts1 : List String) :
    _parse_iff_loop (fuel+1) m left ("<->" :: ts1) =
      match _parse_implies fuel m ts1 with
      | .error e => .error e
      | .ok (m1, right, ts2) =>
        match apply_iff m1 left right with
        | none => .error .internal
        | some (m2, left2) => _parse_iff_loop fuel m2 left2 ts2 := rfl

theorem _parse_implies_loop_op (fuel : Nat) (m : BDDManager) (left : Nat)
    (ts1 : List String) :
    _parse_implies_loop (fuel+1) m left ("->" :: ts1) =
      match _parse_xor fuel m ts1 with
      | .error e => .error e
      | .ok (m1, right, ts2) =>
        match apply_implies m1 left right with
        | none => .error .internal
        | some (m2, left2) => _parse_implies_loop fuel m2 left2 ts2 := rfl

theorem _parse_xor_loop_op (fuel : Nat) (m : BDDManager) (left : Nat)
    (ts1 : List String) :
    _parse_xor_loop (fuel+1) m left ("^" :: ts1) =
      match _parse_or fuel m ts1 with
      | .error e => .error e
      | .ok (m1, right, ts2) =>
        match apply_xor m1 left right with
        | none => .error .internal
        | some (m2, left2) => _parse_xor_loop fuel m2 left2 ts2 := rfl

theorem _parse_or_loop_op (fuel : Nat) (m : BDDManager) (left : Nat)
    (ts1 : List String) :
    _parse_or_loop (fuel+1) m left ("|" :: ts1) =
      match _parse_and fuel m ts1 with
      | .error e => .error e
      | .ok (m1, right, ts2) =>
        match apply_or m1 left right with
        | none => .error .internal
        | some (m2, left2) => _parse_or_loop fuel m2 left2 ts2 := rfl

theorem _parse_and_loop_op (fuel : Nat) (m : BDDManager) (left : Nat)
    (ts1 : List String) :
    _parse_and_loop (fuel+1) m left ("&" :: ts1) =
      match _parse_not fuel m ts1 with
      | .error e => .error e
      | .ok (m1, right, ts2) =>
        match apply_and m1 left right with
        | none => .error .internal
        | some (m2, left2) => _parse_and_loop fuel m2 left2 ts2 := rfl

theorem _parse_not_neg (fuel : Nat) (m : BDDManager) (ts1 : List String) :
    _parse_not (fuel+1) m ("~" :: ts1) =
      match _parse_not fuel m ts1 with
      | .error e => .error e
      | .ok (m1, operand, ts2) =>
        match apply_not m1 operand with
        | none => .error .internal
        | some (m2, r) => .ok (m2, r, ts2) := rfl

theorem _parse_primary_paren (fuel : Nat) (m : BDDManager) (ts1 : List String) :
    _parse_primary (fuel+1) m ("(" :: ts1) =
      match _parse_iff fuel m ts1 with
      | .error e => .error e
      | .ok (m1, result, ts2) =>
        match ts2 with
        | ")" :: ts3 => .ok (m1, result, ts3)
        | _ => .error .missingClosingParen := rfl

theorem _parse_iff_loop_nonop {fuel : Nat} {m : BDDManager} {left : Nat}
    {rest : List String} (h : rest.head? ≠ some ("<->")) :
    _parse_iff_loop (fuel+1) m left rest = .ok (m, left, rest) := by
  unfold _parse_iff_loop
  split
  · simp at h
  · rfl

theorem _parse_implies_loop_nonop {fuel : Nat} {m : BDDManager} {left : Nat}
    {rest : List String} (h : rest.head? ≠ some ("->")) :
    _parse_implies_loop (fuel+1) m left rest = .ok (m, left, rest) := by
  unfold _parse_implies_loop
  split
  · simp at h
  · rfl

theorem _parse_xor_loop_nonop {fuel : Nat} {m : BDDManager} {left : Nat}
    {rest : List String} (h : rest.head? ≠ some ("^")) :
    _parse_xor_loop (fuel+1) m left rest = .ok (m, left, rest) := by
  unfold _parse_xor_loop
  split
  · simp at h
  · rfl

theorem _parse_or_loop_nonop {fuel : Nat} {m : BDDManager} {left : Nat}
    {rest : List String} (h : rest.head? ≠ some ("|")) :
    _parse_or_loop (fuel+1) m left rest = .ok (m, left, rest) := by
  unfold _parse_or_loop
  split
  · simp at h
  · rfl

theorem _parse_and_loop_nonop {fuel : Nat} {m : BDDManager} {left : Nat}
    {rest : List String} (h : rest.head? ≠ some ("&")) :
    _parse_and_loop (fuel+1) m left rest = .ok (m, left, rest) := by
  unfold _parse_and_loop
  split
  · simp at h
  · rfl

theorem _parse_not_step {fuel : Nat} {m : BDDManager} {ts : List String}
    (h : ts.head? ≠ some ("~")) :
    _parse_not (fuel+1) m ts = _parse_primary fuel m ts := by
  unfold _parse_not
  split
  · simp at h
  · rfl

theorem _parse_primary_var {fuel : Nat} {m : BDDManager} {t : String}
    {rest : List String} (hne : t ≠ "(") (hid : isIdentToken t = true) :
    _parse_primary (fuel+1) m (t :: rest) =
      match create_variable m t with
      | none => .error (.unknownVariable t)
      | some (m1, r) => .ok (m1, r, rest) := by
  unfold _parse_primary
  split
  · rename_i heq
    exact List.noConfusion heq
  · rename_i ts1 heq
    injection heq with e1 e2
    exact absurd e1 hne
  · rename_i t2 ts1 hne2
    injection hne2 with e1 e2
    subst e1
    subst e2
    rw [if_pos hid]

theorem opTok_ne {i j : Nat} (h2 : 2 ≤ j) (hji : j < i) (hi6 : i ≤ 6) :
    opTok i ≠ opTok j := by
  interval_cases i <;> interval_cases j <;> decide

theorem isIdentToken_ne_paren {t : String} (h : isIdentToken t = true) :
    t ≠ "(" := by
  intro he
  rw [he] at h
  exact absurd h (by decide)

theorem isIdentToken_ne_neg {t : String} (h : isIdentToken t = true) :
    t ≠ "~" := by
  intro he
  rw [he] at h
  exact absurd h (by decide)

/-- The head token of a level-0 (primary) phrase is an identifier or `(`. -/
theorem gram0_head {ts : List String} (h : Gram 0 ts) :
    (∃ t, ts = [t] ∧ isIdentToken t = true) ∨
    ∃ ts1, ts = "(" :: (ts1 ++ [")"]) ∧ Gram 6 ts1 := by
  cases h with
  | var ht => exact Or.inl ⟨_, Eq.refl _, ht⟩
  | paren hg => exact Or.inr ⟨_, Eq.refl _, hg⟩

/-- A grammatical phrase is never the empty token list. -/
theorem gram_ne_nil {k : Nat} {ts : List String} (h : Gram k ts) : ts ≠ [] := by
  induction h with
  | var ht => simp
  | paren hg => simp
  | neg hg ihg => simp
  | lift hk5 hg ihg => exact ihg
  | app hk1 hk5 hg1 hg2 ih1 ih2 =>
    intro hc
    rcases List.append_eq_nil.mp hc with ⟨h1, h2⟩
    exact ih1 h1

/-- The follow condition propagates from level `k+1` to level `k` across an
operator-chunk sequence: the next token after the chunks is either the level
`k+1` operator itself (which no lower level consumes) or a token from `rest`
allowed at level `k+1`. -/
theorem followOK_join {k : Nat} (hk6 : k + 1 ≤ 6) {cs : List (List String)}
    {rest : List String} (hf : followOK (k+1) rest) :
    followOK k ((cs.map (fun x => opTok (k+1) :: x)).join ++ rest) := by
  intro j h2 hjk
  cases cs with
  | nil => simpa using hf j h2 (by omega)
  | cons c2 cs2 =>
    have hhead : (((c2 :: cs2).map (fun x => opTok (k+1) :: x)).join ++ rest).head? =
        some (opTok (k+1)) := by simp
    rw [hhead]
    intro hcon
    injection hcon with e
    exact opTok_ne h2 (by omega) hk6 e

theorem chunk_length_le {cs : List (List String)} {x : List String}
    (hx : x ∈ cs) (op : String) :
    x.length < ((cs.map (fun y => op :: y)).join).length := by
  induction cs with
  | nil => simp at hx
  | cons c cs ih =>
    rcases List.mem_cons.mp hx with rfl | hx
    · simp
      omega
    · have := ih hx
      simp at this ⊢
      omega

theorem mem_join_of_mem {cs : List (List String)} {x : List String} {t : String}
    (hx : x ∈ cs) (ht : t ∈ x) (op : String) :
    t ∈ (cs.map (fun y => op :: y)).join := by
  rw [List.mem_join]
  exact ⟨op :: x, List.mem_map.mpr ⟨x, hx, Eq.refl _⟩, List.mem_cons.mpr (Or.inr ht)⟩

/-- Completeness of the `<->` loop, given completeness of `_parse_implies`. -/
theorem loop_complete_iff {n : Nat} (hA : ParseGood _parse_implies 5 10 n) :
    LoopGood _parse_iff_loop 5 13 n := by
  intro cs
  induction cs with
  | nil =>
    intro _ rest m left hInv hleft _ hfollow fuel hfuel
    obtain ⟨f, rfl⟩ : ∃ f, fuel = f + 1 := ⟨fuel - 1, by omega⟩
    refine ⟨m, left, ?_, Extends.rfl m, hInv, hleft⟩
    simp only [List.map_nil, List.join_nil, List.nil_append]
    refine _parse_iff_loop_nonop ?_
    have := hfollow 6 (by omega) (by omega)
    simpa using this
  | cons c cs ih =>
    intro hgram rest m left hInv hleft hident hfollow fuel hfuel
    obtain ⟨f, rfl⟩ : ∃ f, fuel = f + 1 := ⟨fuel - 1, by omega⟩
    obtain ⟨hgc, hlc⟩ := hgram c (List.mem_cons_self c cs)
    have hjoin_cons : ((c :: cs).map (fun x => opTok (5+1) :: x)).join =
        (opTok (5+1) :: c) ++ ((cs.map (fun x => opTok (5+1) :: x)).join) := by
      simp
    have hshape : ((c :: cs).map (fun x => opTok (5+1) :: x)).join ++ rest =
        "<->" :: (c ++ ((cs.map (fun x => opTok (5+1) :: x)).join ++ rest)) := by
      rw [hjoin_cons]
      simp [opTok]
    have hlenjoin : (((c :: cs).map (fun x => opTok (5+1) :: x)).join).length =
        c.length + 1 + ((cs.map (fun x => opTok (5+1) :: x)).join).length := by
      rw [hjoin_cons]
      simp only [List.length_append, List.length_cons]
    have hlr : ((cs.map (fun x => opTok (5+1) :: x)).join ++ rest).length =
        ((cs.map (fun x => opTok (5+1) :: x)).join).length + rest.length := by
      simp
    rw [hshape, _parse_iff_loop_op]
    have hfol : followOK 5 ((cs.map (fun x => opTok (5+1) :: x)).join ++ rest) :=
      followOK_join (by omega) hfollow
    obtain ⟨m1, right, heq1, hx1, hi1, hl1⟩ := hA c hlc hgc _ m hInv
      (hident c (List.mem_cons_self c cs)) hfol f (by omega)
    rw [heq1]
    dsimp only
    obtain ⟨mm, left2, happ, hxa, hia, hla⟩ := apply_iff_sound hi1
      (show left < m1.node_list.length by have := hx1.len_le; omega) hl1
    rw [happ]
    dsimp only
    obtain ⟨m2, r, heq2, hx2, hi2, hl2⟩ := ih
      (fun x hx => hgram x (List.mem_cons_of_mem c hx))
      rest mm left2 hia hla
      (fun x hx => identOK_ext (hx1.trans hxa)
        (hident x (List.mem_cons_of_mem c hx)))
      hfollow f (by omega)
    exact ⟨m2, r, heq2, (hx1.trans hxa).trans hx2, hi2, hl2⟩

/-- Completeness of `_parse_iff`, given completeness of `_parse_implies` and
of the `<->` loop. -/
theorem entry_complete_iff {n : Nat} (hA : ParseGood _parse_implies 5 10 n)
    (hL : LoopGood _parse_iff_loop 5 13 n) : ParseGood _parse_iff 6 12 n := by
  intro ts hlen hg rest m hInv hident hfollow fuel hfuel
  obtain ⟨f, rfl⟩ : ∃ f, fuel = f + 1 := ⟨fuel - 1, by omega⟩
  obtain ⟨c, cs, hc, hcs, hts⟩ := gram_chunks hg 5 (Eq.refl _) (by omega)
  subst hts
  rw [_parse_iff_eq, List.append_assoc]
  have hclen : 1 ≤ c.length := List.length_pos.mpr (gram_ne_nil hc)
  have hlen2 : (c ++ (cs.map (fun x => opTok 6 :: x)).join).length =
      c.length + ((cs.map (fun x => opTok 6 :: x)).join).length := by simp
  have hlr : ((cs.map (fun x => opTok 6 :: x)).join ++ rest).length =
      ((cs.map (fun x => opTok 6 :: x)).join).length + rest.length := by simp
  have hfol : followOK 5 ((cs.map (fun x => opTok 6 :: x)).join ++ rest) :=
    followOK_join (by omega) hfollow
  obtain ⟨m1, left, heq1, hx1, hi1, hl1⟩ := hA c (by omega) hc _ m hInv
    (identOK_sub (fun t ht => List.mem_append_left _ ht) hident) hfol f (by omega)
  rw [heq1]
  dsimp only
  have hsame : ((cs.map (fun x => opTok (5+1) :: x)).join).length =
      ((cs.map (fun x => opTok 6 :: x)).join).length := Eq.refl _
  obtain ⟨m2, r, heq2, hx2, hi2, hl2⟩ := hL cs
    (fun x hx => ⟨hcs x hx, by
      have := chunk_length_le hx (opTok 6)
      omega⟩)
    rest m1 left hi1 hl1
    (fun x hx => identOK_ext hx1 (identOK_sub
      (fun t ht => List.mem_append_right _ (mem_join_of_mem hx ht _)) hident))
    hfollow f (by omega)
  exact ⟨m2, r, heq2, hx1.trans hx2, hi2, hl2⟩

/-- Completeness of the `->` loop, given completeness of `_parse_xor`. -/
theorem loop_complete_implies {n : Nat} (hA : ParseGood _parse_xor 4 8 n) :
    LoopGood _parse_implies_loop 4 11 n := by
  intro cs
  induction cs with
  | nil =>
    intro _ rest m left hInv hleft _ hfollow fuel hfuel
    obtain ⟨f, rfl⟩ : ∃ f, fuel = f + 1 := ⟨fuel - 1, by omega⟩
    refine ⟨m, left, ?_, Extends.rfl m, hInv, hleft⟩
    simp only [List.map_nil, List.join_nil, List.nil_append]
    refine _parse_implies_loop_nonop ?_
    have := hfollow 5 (by omega) (by omega)
    simpa using this
  | cons c cs ih =>
    intro hgram rest m left hInv hleft hident hfollow fuel hfuel
    obtain ⟨f, rfl⟩ : ∃ f, fuel = f + 1 := ⟨fuel - 1, by omega⟩
    obtain ⟨hgc, hlc⟩ := hgram c (List.mem_cons_self c cs)
    have hjoin_cons : ((c :: cs).map (fun x => opTok (4+1) :: x)).join =
        (opTok (4+1) :: c) ++ ((cs.map (fun x => opTok (4+1) :: x)).join) := by
      simp
    have hshape : ((c :: cs).map (fun x => opTok (4+1) :: x)).join ++ rest =
        "->" :: (c ++ ((cs.map (fun x => opTok (4+1) :: x)).join ++ rest)) := by
      rw [hjoin_cons]
      simp [opTok]
    have hlenjoin : (((c :: cs).map (fun x => opTok (4+1) :: x)).join).length =
        c.length + 1 + ((cs.map (fun x => opTok (4+1) :: x)).join).length := by
      rw [hjoin_cons]
      simp only [List.length_append, List.length_cons]
    have hlr : ((cs.map (fun x => opTok (4+1) :: x)).join ++ rest).length =
        ((cs.map (fun x => opTok (4+1) :: x)).join).length + rest.length := by
      simp
    rw [hshape, _parse_implies_loop_op]
    have hfol : followOK 4 ((cs.map (fun x => opTok (4+1) :: x)).join ++ rest) :=
      followOK_join (by omega) hfollow
    obtain ⟨m1, right, heq1, hx1, hi1, hl1⟩ := hA c hlc hgc _ m hInv
      (hident c (List.mem_cons_self c cs)) hfol f (by omega)
    rw [heq1]
    dsimp only
    obtain ⟨mm, left2, happ, hxa, hia, hla⟩ := apply_implies_sound hi1
      (show left < m1.node_list.length by have := hx1.len_le; omega) hl1
    rw [happ]
    dsimp only
    obtain ⟨m2, r, heq2, hx2, hi2, hl2⟩ := ih
      (fun x hx => hgram x (List.mem_cons_of_mem c hx))
      rest mm left2 hia hla
      (fun x hx => identOK_ext (hx1.trans hxa)
        (hident x (List.mem_cons_of_mem c hx)))
      hfollow f (by omega)
    exact ⟨m2, r, heq2, (hx1.trans hxa).trans hx2, hi2, hl2⟩

/-- Completeness of `_parse_implies`, given completeness of `_parse_xor` and of the
`->` loop. -/
theorem entry_complete_implies {n : Nat} (hA : ParseGood _parse_xor 4 8 n)
    (hL : LoopGood _parse_implies_loop 4 11 n) : ParseGood _parse_implies 5 10 n := by
  intro ts hlen hg rest m hInv hident hfollow fuel hfuel
  obtain ⟨f, rfl⟩ : ∃ f, fuel = f + 1 := ⟨fuel - 1, by omega⟩
  obtain ⟨c, cs, hc, hcs, hts⟩ := gram_chunks hg 4 (Eq.refl _) (by omega)
  subst hts
  rw [_parse_implies_eq, List.append_assoc]
  have hclen : 1 ≤ c.length := List.length_pos.mpr (gram_ne_nil hc)
  have hlen2 : (c ++ (cs.map (fun x => opTok 5 :: x)).join).length =
      c.length + ((cs.map (fun x => opTok 5 :: x)).join).length := by simp
  have hlr : ((cs.map (fun x => opTok 5 :: x)).join ++ rest).length =
      ((cs.map (fun x => opTok 5 :: x)).join).length + rest.length := by simp
  have hfol : followOK 4 ((cs.map (fun x => opTok 5 :: x)).join ++ rest) :=
    followOK_join (by omega) hfollow
  obtain ⟨m1, left, heq1, hx1, hi1, hl1⟩ := hA c (by omega) hc _ m hInv
    (identOK_sub (fun t ht => List.mem_append_left _ ht) hident) hfol f (by omega)
  rw [heq1]
  dsimp only
  have hsame : ((cs.map (fun x => opTok (4+1) :: x)).join).length =
      ((cs.map (fun x => opTok 5 :: x)).join).length := Eq.refl _
  obtain ⟨m2, r, heq2, hx2, hi2, hl2⟩ := hL cs
    (fun x hx => ⟨hcs x hx, by
      have := chunk_length_le hx (opTok 5)
      omega⟩)
    rest m1 left hi1 hl1
    (fun x hx => identOK_ext hx1 (identOK_sub
      (fun t ht => List.mem_append_right _ (mem_join_of_mem hx ht _)) hident))
    hfollow f (by omega)
  exact ⟨m2, r, heq2, hx1.trans hx2, hi2, hl2⟩

/-- Completeness of the `^` loop, given completeness of `_parse_or`. -/
theorem loop_complete_xor {n : Nat} (hA : ParseGood _parse_or 3 6 n) :
    LoopGood _parse_xor_loop 3 9 n := by
  intro cs
  induction cs with
  | nil =>
    intro _ rest m left hInv hleft _ hfollow fuel hfuel
    obtain ⟨f, rfl⟩ : ∃ f, fuel = f + 1 := ⟨fuel - 1, by omega⟩
    refine ⟨m, left, ?_, Extends.rfl m, hInv, hleft⟩
    simp only [List.map_nil, List.join_nil, List.nil_append]
    refine _parse_xor_loop_nonop ?_
    have := hfollow 4 (by omega) (by omega)
    simpa using this
  | cons c cs ih =>
    intro hgram rest m left hInv hleft hident hfollow fuel hfuel
    obtain ⟨f, rfl⟩ : ∃ f, fuel = f + 1 := ⟨fuel - 1, by omega⟩
    obtain ⟨hgc, hlc⟩ := hgram c (List.mem_cons_self c cs)
    have hjoin_cons : ((c :: cs).map (fun x => opTok (3+1) :: x)).join =
        (opTok (3+1) :: c) ++ ((cs.map (fun x => opTok (3+1) :: x)).join) := by
      simp
    have hshape : ((c :: cs).map (fun x => opTok (3+1) :: x)).join ++ rest =
        "^" :: (c ++ ((cs.map (fun x => opTok (3+1) :: x)).join ++ rest)) := by
      rw [hjoin_cons]
      simp [opTok]
    have hlenjoin : (((c :: cs).map (fun x => opTok (3+1) :: x)).join).length =
        c.length + 1 + ((cs.map (fun x => opTok (3+1) :: x)).join).length := by
      rw [hjoin_cons]
      simp only [List.length_append, List.length_cons]
    have hlr : ((cs.map (fun x => opTok (3+1) :: x)).join ++ rest).length =
        ((cs.map (fun x => opTok (3+1) :: x)).join).length + rest.length := by
      simp
    rw [hshape, _parse_xor_loop_op]
    have hfol : followOK 3 ((cs.map (fun x => opTok (3+1) :: x)).join ++ rest) :=
      followOK_join (by omega) hfollow
    obtain ⟨m1, right, heq1, hx1, hi1, hl1⟩ := hA c hlc hgc _ m hInv
      (hident c (List.mem_cons_self c cs)) hfol f (by omega)
    rw [heq1]
    dsimp only
    obtain ⟨mm, left2, happ, hxa, hia, hla⟩ := apply_xor_sound hi1
      (show left < m1.node_list.length by have := hx1.len_le; omega) hl1
    rw [happ]
    dsimp only
    obtain ⟨m2, r, heq2, hx2, hi2, hl2⟩ := ih
      (fun x hx => hgram x (List.mem_cons_of_mem c hx))
      rest mm left2 hia hla
      (fun x hx => identOK_ext (hx1.trans hxa)
        (hident x (List.mem_cons_of_mem c hx)))
      hfollow f (by omega)
    exact ⟨m2, r, heq2, (hx1.trans hxa).trans hx2, hi2, hl2⟩

/-- Completeness of `_parse_xor`, given completeness of `_parse_or` and of the
`^` loop. -/
theorem entry_complete_xor {n : Nat} (hA : ParseGood _parse_or 3 6 n)
    (hL : LoopGood _parse_xor_loop 3 9 n) : ParseGood _parse_xor 4 8 n := by
  intro ts hlen hg rest m hInv hident hfollow fuel hfuel
  obtain ⟨f, rfl⟩ : ∃ f, fuel = f + 1 := ⟨fuel - 1, by omega⟩
  obtain ⟨c, cs, hc, hcs, hts⟩ := gram_chunks hg 3 (Eq.refl _) (by omega)
  subst hts
  rw [_parse_xor_eq, List.append_assoc]
  have hclen : 1 ≤ c.length := List.length_pos.mpr (gram_ne_nil hc)
  have hlen2 : (c ++ (cs.map (fun x => opTok 4 :: x)).join).length =
      c.length + ((cs.map (fun x => opTok 4 :: x)).join).length := by simp
  have hlr : ((cs.map (fun x => opTok 4 :: x)).join ++ rest).length =
      ((cs.map (fun x => opTok 4 :: x)).join).length + rest.length := by simp
  have hfol : followOK 3 ((cs.map (fun x => opTok 4 :: x)).join ++ rest) :=
    followOK_join (by omega) hfollow
  obtain ⟨m1, left, heq1, hx1, hi1, hl1⟩ := hA c (by omega) hc _ m hInv
    (identOK_sub (fun t ht => List.mem_append_left _ ht) hident) hfol f (by omega)
  rw [heq1]
  dsimp only
  have hsame : ((cs.map (fun x => opTok (3+1) :: x)).join).length =
      ((cs.map (fun x => opTok 4 :: x)).join).length := Eq.refl _
  obtain ⟨m2, r, heq2, hx2, hi2, hl2⟩ := hL cs
    (fun x hx => ⟨hcs x hx, by
      have := chunk_length_le hx (opTok 4)
      omega⟩)
    rest m1 left hi1 hl1
    (fun x hx => identOK_ext hx1 (identOK_sub
      (fun t ht => List.mem_append_right _ (mem_join_of_mem hx ht _)) hident))
    hfollow f (by omega)
  exact ⟨m2, r, heq2, hx1.trans hx2, hi2, hl2⟩

/-- Completeness of the `|` loop, given completeness of `_parse_and`. -/
theorem loop_complete_or {n : Nat} (hA : ParseGood _parse_and 2 4 n) :
    LoopGood _parse_or_loop 2 7 n := by
  intro cs
  induction cs with
  | nil =>
    intro _ rest m left hInv hleft _ hfollow fuel hfuel
    obtain ⟨f, rfl⟩ : ∃ f, fuel = f + 1 := ⟨fuel - 1, by omega⟩
    refine ⟨m, left, ?_, Extends.rfl m, hInv, hleft⟩
    simp only [List.map_nil, List.join_nil, List.nil_append]
    refine _parse_or_loop_nonop ?_
    have := hfollow 3 (by omega) (by omega)
    simpa using this
  | cons c cs ih =>
    intro hgram rest m left hInv hleft hident hfollow fuel hfuel
    obtain ⟨f, rfl⟩ : ∃ f, fuel = f + 1 := ⟨fuel - 1, by omega⟩
    obtain ⟨hgc, hlc⟩ := hgram c (List.mem_cons_self c cs)
    have hjoin_cons : ((c :: cs).map (fun x => opTok (2+1) :: x)).join =
        (opTok (2+1) :: c) ++ ((cs.map (fun x => opTok (2+1) :: x)).join) := by
      simp
    have hshape : ((c :: cs).map (fun x => opTok (2+1) :: x)).join ++ rest =
        "|" :: (c ++ ((cs.map (fun x => opTok (2+1) :: x)).join ++ rest)) := by
      rw [hjoin_cons]
      simp [opTok]
    have hlenjoin : (((c :: cs).map (fun x => opTok (2+1) :: x)).join).length =
        c.length + 1 + ((cs.map (fun x => opTok (2+1) :: x)).join).length := by
      rw [hjoin_cons]
      simp only [List.length_append, List.length_cons]
    have hlr : ((cs.map (fun x => opTok (2+1) :: x)).join ++ rest).length =
        ((cs.map (fun x => opTok (2+1) :: x)).join).length + rest.length := by
      simp
    rw [hshape, _parse_or_loop_op]
    have hfol : followOK 2 ((cs.map (fun x => opTok (2+1) :: x)).join ++ rest) :=
      followOK_join (by omega) hfollow
    obtain ⟨m1, right, heq1, hx1, hi1, hl1⟩ := hA c hlc hgc _ m hInv
      (hident c (List.mem_cons_self c cs)) hfol f (by omega)
    rw [heq1]
    dsimp only
    obtain ⟨mm, left2, happ, hxa, hia, hla⟩ := apply_or_sound hi1
      (show left < m1.node_list.length by have := hx1.len_le; omega) hl1
    rw [happ]
    dsimp only
    obtain ⟨m2, r, heq2, hx2, hi2, hl2⟩ := ih
      (fun x hx => hgram x (List.mem_cons_of_mem c hx))
      rest mm left2 hia hla
      (fun x hx => identOK_ext (hx1.trans hxa)
        (hident x (List.mem_cons_of_mem c hx)))
      hfollow f (by omega)
    exact ⟨m2, r, heq2, (hx1.trans hxa).trans hx2, hi2, hl2⟩

/-- Completeness of `_parse_or`, given completeness of `_parse_and` and of the
`|` loop. -/
theorem entry_complete_or {n : Nat} (hA : ParseGood _parse_and 2 4 n)
    (hL : LoopGood _parse_or_loop 2 7 n) : ParseGood _parse_or 3 6 n := by
  intro ts hlen hg rest m hInv hident hfollow fuel hfuel
  obtain ⟨f, rfl⟩ : ∃ f, fuel = f + 1 := ⟨fuel - 1, by omega⟩
  obtain ⟨c, cs, hc, hcs, hts⟩ := gram_chunks hg 2 (Eq.refl _) (by omega)
  subst hts
  rw [_parse_or_eq, List.append_assoc]
  have hclen : 1 ≤ c.length := List.length_pos.mpr (gram_ne_nil hc)
  have hlen2 : (c ++ (cs.map (fun x => opTok 3 :: x)).join).length =
      c.length + ((cs.map (fun x => opTok 3 :: x)).join).length := by simp
  have hlr : ((cs.map (fun x => opTok 3 :: x)).join ++ rest).length =
      ((cs.map (fun x => opTok 3 :: x)).join).length + rest.length := by simp
  have hfol : followOK 2 ((cs.map (fun x => opTok 3 :: x)).join ++ rest) :=
    followOK_join (by omega) hfollow
  obtain ⟨m1, left, heq1, hx1, hi1, hl1⟩ := hA c (by omega) hc _ m hInv
    (identOK_sub (fun t ht => List.mem_append_left _ ht) hident) hfol f (by omega)
  rw [heq1]
  dsimp only
  have hsame : ((cs.map (fun x => opTok (2+1) :: x)).join).length =
      ((cs.map (fun x => opTok 3 :: x)).join).length := Eq.refl _
  obtain ⟨m2, r, heq2, hx2, hi2, hl2⟩ := hL cs
    (fun x hx => ⟨hcs x hx, by
      have := chunk_length_le hx (opTok 3)
      omega⟩)
    rest m1 left hi1 hl1
    (fun x hx => identOK_ext hx1 (identOK_sub
      (fun t ht => List.mem_append_right _ (mem_join_of_mem hx ht _)) hident))
    hfollow f (by omega)
  exact ⟨m2, r, heq2, hx1.trans hx2, hi2, hl2⟩

/-- Completeness of the `&` loop, given completeness of `_parse_not`. -/
theorem loop_complete_and {n : Nat} (hA : ParseGood _parse_not 1 2 n) :
    LoopGood _parse_and_loop 1 5 n := by
  intro cs
  induction cs with
  | nil =>
    intro _ rest m left hInv hleft _ hfollow fuel hfuel
    obtain ⟨f, rfl⟩ : ∃ f, fuel = f + 1 := ⟨fuel - 1, by omega⟩
    refine ⟨m, left, ?_, Extends.rfl m, hInv, hleft⟩
    simp only [List.map_nil, List.join_nil, List.nil_append]
    refine _parse_and_loop_nonop ?_
    have := hfollow 2 (by omega) (by omega)
    simpa using this
  | cons c cs ih =>
    intro hgram rest m left hInv hleft hident hfollow fuel hfuel
    obtain ⟨f, rfl⟩ : ∃ f, fuel = f + 1 := ⟨fuel - 1, by omega⟩
    obtain ⟨hgc, hlc⟩ := hgram c (List.mem_cons_self c cs)
    have hjoin_cons : ((c :: cs).map (fun x => opTok (1+1) :: x)).join =
        (opTok (1+1) :: c) ++ ((cs.map (fun x => opTok (1+1) :: x)).join) := by
      simp
    have hshape : ((c :: cs).map (fun x => opTok (1+1) :: x)).join ++ rest =
        "&" :: (c ++ ((cs.map (fun x => opTok (1+1) :: x)).join ++ rest)) := by
      rw [hjoin_cons]
      simp [opTok]
    have hlenjoin : (((c :: cs).map (fun x => opTok (1+1) :: x)).join).length =
        c.length + 1 + ((cs.map (fun x => opTok (1+1) :: x)).join).length := by
      rw [hjoin_cons]
      simp only [List.length_append, List.length_cons]
    have hlr : ((cs.map (fun x => opTok (1+1) :: x)).join ++ rest).length =
        ((cs.map (fun x => opTok (1+1) :: x)).join).length + rest.length := by
      simp
    rw [hshape, _parse_and_loop_op]
    have hfol : followOK 1 ((cs.map (fun x => opTok (1+1) :: x)).join ++ rest) :=
      followOK_join (by omega) hfollow
    obtain ⟨m1, right, heq1, hx1, hi1, hl1⟩ := hA c hlc hgc _ m hInv
      (hident c (List.mem_cons_self c cs)) hfol f (by omega)
    rw [heq1]
    dsimp only
    obtain ⟨mm, left2, happ, hxa, hia, hla, _, _⟩ := apply_and_sound hi1
      (show left < m1.node_list.length by have := hx1.len_le; omega) hl1
    rw [happ]
    dsimp only
    obtain ⟨m2, r, heq2, hx2, hi2, hl2⟩ := ih
      (fun x hx => hgram x (List.mem_cons_of_mem c hx))
      rest mm left2 hia hla
      (fun x hx => identOK_ext (hx1.trans hxa)
        (hident x (List.mem_cons_of_mem c hx)))
      hfollow f (by omega)
    exact ⟨m2, r, heq2, (hx1.trans hxa).trans hx2, hi2, hl2⟩

/-- Completeness of `_parse_and`, given completeness of `_parse_not` and of the
`&` loop. -/
theorem entry_complete_and {n : Nat} (hA : ParseGood _parse_not 1 2 n)
    (hL : LoopGood _parse_and_loop 1 5 n) : ParseGood _parse_and 2 4 n := by
  intro ts hlen hg rest m hInv hident hfollow fuel hfuel
  obtain ⟨f, rfl⟩ : ∃ f, fuel = f + 1 := ⟨fuel - 1, by omega⟩
  obtain ⟨c, cs, hc, hcs, hts⟩ := gram_chunks hg 1 (Eq.refl _) (by omega)
  subst hts
  rw [_parse_and_eq, List.append_assoc]
  have hclen : 1 ≤ c.length := List.length_pos.mpr (gram_ne_nil hc)
  have hlen2 : (c ++ (cs.map (fun x => opTok 2 :: x)).join).length =
      c.length + ((cs.map (fun x => opTok 2 :: x)).join).length := by simp
  have hlr : ((cs.map (fun x => opTok 2 :: x)).join ++ rest).length =
      ((cs.map (fun x => opTok 2 :: x)).join).length + rest.length := by simp
  have hfol : followOK 1 ((cs.map (fun x => opTok 2 :: x)).join ++ rest) :=
    followOK_join (by omega) hfollow
  obtain ⟨m1, left, heq1, hx1, hi1, hl1⟩ := hA c (by omega) hc _ m hInv
    (identOK_sub (fun t ht => List.mem_append_left _ ht) hident) hfol f (by omega)
  rw [heq1]
  dsimp only
  have hsame : ((cs.map (fun x => opTok (1+1) :: x)).join).length =
      ((cs.map (fun x => opTok 2 :: x)).join).length := Eq.refl _
  obtain ⟨m2, r, heq2, hx2, hi2, hl2⟩ := hL cs
    (fun x hx => ⟨hcs x hx, by
      have := chunk_length_le hx (opTok 2)
      omega⟩)
    rest m1 left hi1 hl1
    (fun x hx => identOK_ext hx1 (identOK_sub
      (fun t ht => List.mem_append_right _ (mem_join_of_mem hx ht _)) hident))
    hfollow f (by omega)
  exact ⟨m2, r, heq2, hx1.trans hx2, hi2, hl2⟩

/-- Completeness of the whole recursive-descent parser, by strong induction on
the token-list length bound: every parser level, applied to a grammatical
token list over known variables followed by non-extending tokens, succeeds and
consumes exactly the grammatical prefix. -/
theorem parse_complete : ∀ n : Nat,
    ParseGood _parse_primary 0 1 n ∧ ParseGood _parse_not 1 2 n ∧
    ParseGood _parse_and 2 4 n ∧ ParseGood _parse_or 3 6 n ∧
    ParseGood _parse_xor 4 8 n ∧ ParseGood _parse_implies 5 10 n ∧
    ParseGood _parse_iff 6 12 n := by
  intro n
  induction n using Nat.strong_induction_on with
  | _ n ih =>
    have hA0 : ParseGood _parse_primary 0 1 n := by
      intro ts hlen hg rest m hInv hident hfollow fuel hfuel
      obtain ⟨f, rfl⟩ : ∃ f, fuel = f + 1 := ⟨fuel - 1, by omega⟩
      rcases gram0_head hg with ⟨t, rfl, hid⟩ | ⟨ts1, rfl, hg6⟩
      · rw [List.singleton_append,
          _parse_primary_var (isIdentToken_ne_paren hid) hid]
        have hknown : (var_level m.variable_ordering t).isSome :=
          hident t (by simp) hid
        obtain ⟨m2, r, hcv, hx, hi2, hl, _⟩ := create_variable_sound hInv hknown
        rw [hcv]
        exact ⟨m2, r, Eq.refl _, hx, hi2, hl⟩
      · have hlts : ts1.length + 2 ≤ n := by
          have : ("(" :: (ts1 ++ [")"])).length = ts1.length + 2 := by simp
          omega
        have hA6 := (ih (n-1) (by omega)).2.2.2.2.2.2
        have hshape : ("(" :: (ts1 ++ [")"])) ++ rest = "(" :: (ts1 ++ (")" :: rest)) := by
          simp
        rw [hshape, _parse_primary_paren]
        have hfol : followOK 6 (")" :: rest) := by
          intro j h2 h6
          intro hcon
          injection hcon with e
          interval_cases j <;> exact absurd e.symm (by decide)
        obtain ⟨m2, r, heq, hx, hi2, hl⟩ := hA6 ts1 (by omega) hg6 (")" :: rest) m
          hInv (identOK_sub (fun t ht => by simp [ht]) hident) hfol f (by
            have hr : (")" :: rest).length = rest.length + 1 := by simp
            have hb : ("(" :: (ts1 ++ [")"])).length = ts1.length + 2 := by simp
            omega)
        rw [heq]
        exact ⟨m2, r, Eq.refl _, hx, hi2, hl⟩
    have hA1 : ParseGood _parse_not 1 2 n := by
      intro ts hlen hg rest m hInv hident hfollow fuel hfuel
      obtain ⟨f, rfl⟩ : ∃ f, fuel = f + 1 := ⟨fuel - 1, by omega⟩
      cases hg with
      | neg hg1 =>
        rename_i ts1
        have hlts : ts1.length + 1 ≤ n := by
          have : ("~" :: ts1).length = ts1.length + 1 := by simp
          omega
        have hA1s := (ih (n-1) (by omega)).2.1
        rw [List.cons_append, _parse_not_neg]
        obtain ⟨m1, r1, heq, hx, hi1, hl1⟩ := hA1s ts1 (by omega) hg1 rest m hInv
          (identOK_sub (fun t ht => List.mem_cons_of_mem _ ht) hident)
          (fun j h2 h1 => by omega) f (by
            have : ("~" :: ts1).length = ts1.length + 1 := by simp
            omega)
        rw [heq]
        dsimp only
        obtain ⟨m2, r2, happ, hxa, hia, hla, _, _⟩ := apply_not_sound hi1 hl1
        rw [happ]
        exact ⟨m2, r2, Eq.refl _, hx.trans hxa, hia, hla⟩
      | app hk1 hk5 hg1 hg2 => exact absurd hk1 (by omega)
      | lift hk5 hg0 =>
        have hhead : (ts ++ rest).head? ≠ some ("~") := by
          rcases gram0_head hg0 with ⟨t, rfl, hid⟩ | ⟨ts1, rfl, _⟩
          · simpa using isIdentToken_ne_neg hid
          · simp
        rw [_parse_not_step hhead]
        obtain ⟨m2, r, heq, hx, hi2, hl⟩ := hA0 ts hlen hg0 rest m hInv hident
          (fun j h2 h0 => by omega) f (by omega)
        exact ⟨m2, r, heq, hx, hi2, hl⟩
    have hA2 : ParseGood _parse_and 2 4 n :=
      entry_complete_and hA1 (loop_complete_and hA1)
    have hA3 : ParseGood _parse_or 3 6 n :=
      entry_complete_or hA2 (loop_complete_or hA2)
    have hA4 : ParseGood _parse_xor 4 8 n :=
      entry_complete_xor hA3 (loop_complete_xor hA3)
    have hA5 : ParseGood _parse_implies 5 10 n :=
      entry_complete_implies hA4 (loop_complete_implies hA4)
    have hA6 : ParseGood _parse_iff 6 12 n :=
      entry_complete_iff hA5 (loop_complete_iff hA5)
    exact ⟨hA0, hA1, hA2, hA3, hA4, hA5, hA6⟩

/-- Completeness of `parse`: it succeeds on every formula string whose (space-stripped) token list
is grammatical and mentions only known variables, starting from any state
satisfying the table invariant. -/
theorem parse_complete_top {m : BDDManager} (hInv : Inv m) {s : String}
    (hg : Gram 6 (tokenize (s.data.filter (fun c => c ≠ ' '))))
    (hident : identOK m (tokenize (s.data.filter (fun c => c ≠ ' ')))) :
    ∃ m2 r, parse m s = .ok (m2, r) := by
  have hA6 := (parse_complete (tokenize (s.data.filter (fun c => c ≠ ' '))).length).2.2.2.2.2.2
  obtain ⟨m2, r, heq, _, _, _⟩ := hA6 (tokenize (s.data.filter (fun c => c ≠ ' ')))
    (le_refl _) hg [] m hInv hident (fun j h2 h6 => by simp)
    (13 * (tokenize (s.data.filter (fun c => c ≠ ' '))).length + 13) (by
      simp only [List.length_nil]
      omega)
  rw [List.append_nil] at heq
  refine ⟨m2, r, ?_⟩
  unfold parse
  simp only [heq]

/-- Claim C6 (malformed-formula errors): `parse "(a & b"` (unmatched
parenthesis), `parse ""` (no primary to parse) and an input with trailing
tokens after a complete parse all fail with UnexpectedToken-kind errors, while
on every well-formed formula over known variables (its space-stripped token
list derives the grammar's start symbol) `parse` succeeds, so no
UnexpectedToken is raised. -/
theorem C6_parser_errors :
    parse (init ["a", "b"]) ("(a & b") = .error .missingClosingParen ∧
    isUnexpectedTokenKind .missingClosingParen = true ∧
    (∀ m : BDDManager, parse m ("") = .error .unexpectedEnd) ∧
    isUnexpectedTokenKind .unexpectedEnd = true ∧
    parse (init ["a", "b"]) ("a~b") = .error (.trailingTokens ["~", "b"]) ∧
    isUnexpectedTokenKind (.trailingTokens ["~", "b"]) = true ∧
    (∀ (m : BDDManager) (s : String), Reachable m →
      Gram 6 (tokenize (s.data.filter (fun c => c ≠ ' '))) →
      identOK m (tokenize (s.data.filter (fun c => c ≠ ' '))) →
      ∃ m2 r, parse m s = .ok (m2, r)) := by
  refine ⟨Eq.refl _, Eq.refl _, fun m => Eq.refl _, Eq.refl _, Eq.refl _,
    Eq.refl _, ?_⟩
  intro m s hre hg hident
  exact parse_complete_top (reachable_inv hre) hg hident

/-- Witness for C6's completeness conjunct at the well-formed formula
`a & b`. -/
theorem C6_parser_errors_witness :
    ∃ m2 r, parse (init ["a", "b"]) ("a & b") = .ok (m2, r) :=
  C6_parser_errors.2.2.2.2.2.2 (init ["a", "b"]) ("a & b")
    (Reachable.init ["a", "b"])
    (Gram.lift (by omega) (Gram.lift (by omega) (Gram.lift (by omega)
      (Gram.lift (by omega)
        (Gram.app (by omega) (by omega)
          (Gram.lift (by omega) (Gram.lift (by omega) (Gram.var (by decide))))
          (Gram.lift (by omega) (Gram.var (by decide))))))))
    (by
      show identOK (init ["a", "b"]) ["a", "&", "b"]
      intro t ht hid
      fin_cases ht
      · decide
      · exact absurd hid (by decide)
      · decide)

end BDD
